import Mathlib

/-
  Verification of the `exchange-engine` matching core against its
  natural-language specification.

  The development shallowly embeds the two matching-engine implementations
  of the repository:

  * namespace `Core`  — `internal/core/engine.go` together with the domain
    model of `internal/domain` (float64 variant) and the in-memory
    repository/cache adapters of `internal/adapter/in_memory`.  Prices and
    quantities are fixed-point decimals (spec §4.1); they are modelled as
    integer numbers of ticks (`ℤ`), on which the only arithmetic the engine
    performs — comparison, `min` and subtraction — agrees exactly with Go
    `float64` on representable values; `time.Time` is a logical `Nat` clock ticked
    once per operation; `uuid.New()` by fresh counters.  Go maps are
    modelled by association lists in insertion order; where a Go `for range`
    over a map has unspecified iteration order (the matching loop of
    `Engine.SubmitOrder`), the model fixes insertion order, one admissible
    schedule.  Pointer sharing between the engine's `orders` map, the
    repository and the trades index is modelled by a single authoritative
    `orders` list (the code saves every order to the repository and mirrors
    cancel/modify there, so both always agree).  The `ledger` field records
    every `Trade` value ever created, in creation order; in the code each
    created trade is returned in `executed` by the creating `SubmitOrder`.

  * namespace `MatchEng` — `internal/engine/engine.go` + `model.go`, the
    engine whose `match` consumes sorted candidates.

  `sort.SliceStable` is modelled by a stable insertion sort (`stableSort`).
-/

/-- Association-list lookup; models a read of a Go map. -/
def alookup {κ α : Type} [DecidableEq κ] : List (κ × α) → κ → Option α
  | [], _ => none
  | p :: rest, k => if p.1 = k then some p.2 else alookup rest k

/-- Association-list update; models a write to a Go map (replace the entry
for an existing key, otherwise append). -/
def aset {κ α : Type} [DecidableEq κ] : List (κ × α) → κ → α → List (κ × α)
  | [], k, v => [(k, v)]
  | p :: rest, k, v => if p.1 = k then (k, v) :: rest else p :: aset rest k v

/-- Stable insert used by `stableSort`: `x` is placed before the first
element that is not strictly less than it. -/
def sIns {α : Type} (less : α → α → Bool) (x : α) : List α → List α
  | [] => [x]
  | y :: ys => if less y x then y :: sIns less x ys else x :: y :: ys

/-- Stable insertion sort; models Go `sort.SliceStable` for a strict-weak
comparator. -/
def stableSort {α : Type} (less : α → α → Bool) : List α → List α
  | [] => []
  | x :: xs => sIns less x (stableSort less xs)

/-- Source: `func min(a, b float64) float64` (both engine files). -/
def minf (a b : ℤ) : ℤ := if a < b then a else b

namespace Core

/-- Source: `internal/domain/order.go`, `type Side string`. -/
inductive Side where
  | Buy
  | Sell
deriving DecidableEq, Repr

/-- Source: `internal/domain/order.go`, `type OrderType string`. -/
inductive OrderType where
  | Limit
  | Market
deriving DecidableEq, Repr

/-- Source: `internal/domain/order.go`, `type OrderStatus string`.  The
float64 domain variant used by `internal/core` declares OPEN, FILLED and
CANCELLED; the engine never assigns any other status. -/
inductive OrderStatus where
  | Open
  | Filled
  | Cancelled
deriving DecidableEq, Repr

/-- Source: `internal/domain/order.go`, `type Order struct`.  IDs are the
engine-assigned UUIDs, modelled as the values of a fresh counter. -/
structure Order where
  ID : Nat
  ClientID : String
  ClientOrderID : String
  Symbol : String
  Side : Side
  Typ : OrderType
  Price : ℤ
  Quantity : ℤ
  Remaining : ℤ
  Status : OrderStatus
  CreatedAt : Nat
deriving DecidableEq, Repr

/-- Source: `internal/domain/trade.go`, `type Trade struct`.  The engine
builds trades without setting `Symbol`, so it is always the zero value. -/
structure Trade where
  ID : Nat
  Symbol : String
  BuyOrder : Nat
  SellOrder : Nat
  Price : ℤ
  Quantity : ℤ
  Timestamp : Nat
deriving DecidableEq, Repr

/-- Source: `internal/domain/snapshot.go`, `type OrderbookSnapshot struct`
(without the mutex).  No code path of the engine ever assigns `Symbol`,
`Timestamp` or `Trades`. -/
structure OrderbookSnapshot where
  Bids : List Order
  Asks : List Order
  Trades : List Trade
  Timestamp : Nat
  Symbol : String
deriving DecidableEq, Repr

/-- The zero `OrderbookSnapshot`, as created by `getOrCreateOrderbook`. -/
def emptyBook : OrderbookSnapshot :=
  { Bids := [], Asks := [], Trades := [], Timestamp := 0, Symbol := "" }

/-- Comparator of `sortOrders` for bids: price descending, then FIFO on
`CreatedAt` (source: `internal/core/engine.go`, `sortOrders`). -/
def bidLess (a b : Order) : Bool :=
  if a.Price = b.Price then decide (a.CreatedAt < b.CreatedAt)
  else decide (b.Price < a.Price)

/-- Comparator of `sortOrders` for asks: price ascending, then FIFO on
`CreatedAt` (source: `internal/core/engine.go`, `sortOrders`). -/
def askLess (a b : Order) : Bool :=
  if a.Price = b.Price then decide (a.CreatedAt < b.CreatedAt)
  else decide (a.Price < b.Price)

/-- Source: `internal/core/engine.go`, `func sortOrders`. -/
def sortOrders (ob : OrderbookSnapshot) : OrderbookSnapshot :=
  { ob with Bids := stableSort bidLess ob.Bids, Asks := stableSort askLess ob.Asks }

/-- Source: `internal/core/engine.go`, `func removeOrder` (removes the
first order with the given ID, if any). -/
def removeOrder : List Order → Nat → List Order
  | [], _ => []
  | o :: rest, oid => if o.ID = oid then rest else o :: removeOrder rest oid

/-- Engine state: `internal/core/engine.go`, `type Engine struct`, plus the
fresh-name counters, the logical clock, and the `ledger` of every created
trade (each trade is created exactly once, inside the matching loop, and
returned in `executed`). -/
structure State where
  orders : List Order
  trades : List (Nat × List Trade)
  orderbook : List (String × OrderbookSnapshot)
  snapshots : List (Nat × OrderbookSnapshot)
  cache : List (String × OrderbookSnapshot)
  ledger : List Trade
  nextOrderId : Nat
  nextTradeId : Nat
  nextSnapId : Nat
  now : Nat
deriving DecidableEq, Repr

/-- The state of a freshly constructed engine (`NewEngine`). -/
def initState : State :=
  { orders := [], trades := [], orderbook := [], snapshots := [], cache := [],
    ledger := [], nextOrderId := 0, nextTradeId := 0, nextSnapId := 0, now := 0 }

/-- Source: `internal/core/engine.go`, `getOrCreateOrderbook` (the created
empty book is stored by the callers through `aset`). -/
def getOrCreateOrderbook (m : List (String × OrderbookSnapshot)) (sym : String) :
    OrderbookSnapshot :=
  (alookup m sym).getD emptyBook

/-- Result of one pass of the matching loop of `Engine.SubmitOrder`:
the orders list after in-place mutation of the counterparties, the
aggressor's remaining quantity, the next trade id, the created trades in
creation order, the per-counterparty trade-index appends (skipped for the
trade that triggers the `break`), and whether the loop broke because the
aggressor filled. -/
structure ScanRes where
  list : List Order
  rem : ℤ
  tid : Nat
  executed : List Trade
  tmapAdds : List (Nat × Trade)
  broke : Bool
deriving DecidableEq, Repr

/-- The matching loop of `Engine.SubmitOrder` (source:
`internal/core/engine.go` lines 88–148): iterate over the orders map —
here in insertion order, one admissible iteration order of the Go map —
and trade the aggressor `agg` against every open opposite order of the
same symbol whose price is compatible, breaking when the aggressor is
filled. -/
def coreScan (agg : Order) (now : Nat) : List Order → ℤ → Nat → ScanRes
  | [], rem, tid =>
      { list := [], rem := rem, tid := tid, executed := [], tmapAdds := [], broke := false }
  | other :: rest, rem, tid =>
    if ¬ (other.Symbol = agg.Symbol ∧ other.Status = OrderStatus.Open ∧ other.ID ≠ agg.ID) then
      let r := coreScan agg now rest rem tid
      { r with list := other :: r.list }
    else if agg.Side = Side.Buy ∧ other.Side = Side.Sell ∧
        (agg.Typ = OrderType.Market ∨ other.Price ≤ agg.Price) then
      let q := minf rem other.Remaining
      if q ≤ 0 then
        let r := coreScan agg now rest rem tid
        { r with list := other :: r.list }
      else
        let tr : Trade := { ID := tid, Symbol := "", BuyOrder := agg.ID, SellOrder := other.ID,
                            Price := other.Price, Quantity := q, Timestamp := now }
        let orem := other.Remaining - q
        let other' : Order := { other with
          Remaining := orem,
          Status := if orem ≤ 0 then OrderStatus.Filled else other.Status }
        if rem - q ≤ 0 then
          { list := other' :: rest, rem := rem - q, tid := tid + 1,
            executed := [tr], tmapAdds := [], broke := true }
        else
          let r := coreScan agg now rest (rem - q) (tid + 1)
          { r with
            list := other' :: r.list, executed := tr :: r.executed,
            tmapAdds := (other.ID, tr) :: r.tmapAdds }
    else if agg.Side = Side.Sell ∧ other.Side = Side.Buy ∧
        (agg.Typ = OrderType.Market ∨ agg.Price ≤ other.Price) then
      let q := minf rem other.Remaining
      if q ≤ 0 then
        let r := coreScan agg now rest rem tid
        { r with list := other :: r.list }
      else
        let tr : Trade := { ID := tid, Symbol := "", BuyOrder := other.ID, SellOrder := agg.ID,
                            Price := other.Price, Quantity := q, Timestamp := now }
        let orem := other.Remaining - q
        let other' : Order := { other with
          Remaining := orem,
          Status := if orem ≤ 0 then OrderStatus.Filled else other.Status }
        if rem - q ≤ 0 then
          { list := other' :: rest, rem := rem - q, tid := tid + 1,
            executed := [tr], tmapAdds := [], broke := true }
        else
          let r := coreScan agg now rest (rem - q) (tid + 1)
          { r with
            list := other' :: r.list, executed := tr :: r.executed,
            tmapAdds := (other.ID, tr) :: r.tmapAdds }
    else
      let r := coreScan agg now rest rem tid
      { r with list := other :: r.list }

/-- Client-supplied fields of a submission (`Engine.SubmitOrder` overwrites
`ID`, `Remaining`, `Status` and `CreatedAt`; the transport adapters never
set an ID, so the model always assigns a fresh one). -/
structure OrderInput where
  ClientID : String
  ClientOrderID : String
  Symbol : String
  Side : Side
  Typ : OrderType
  Price : ℤ
  Quantity : ℤ
deriving DecidableEq, Repr

/-- The order value `Engine.SubmitOrder` constructs for a submission
before matching: fresh ID, `Remaining = Quantity`, status OPEN,
`CreatedAt = now`. -/
def mkAgg (s : State) (inp : OrderInput) : Order :=
  { ID := s.nextOrderId, ClientID := inp.ClientID, ClientOrderID := inp.ClientOrderID,
    Symbol := inp.Symbol, Side := inp.Side, Typ := inp.Typ, Price := inp.Price,
    Quantity := inp.Quantity, Remaining := inp.Quantity, Status := OrderStatus.Open,
    CreatedAt := s.now }

/-- Source: `internal/core/engine.go`, `Engine.SubmitOrder`.  Returns the
new state, the executed trades in execution order, and the assigned order
ID.  The incoming order is indexed, inserted into the book (a value copy,
taken before matching and never refreshed), the book re-sorted, the
matching loop run, the aggressor's final remaining/status written back,
the trade index and ledger extended, and the cache refreshed with the
book. -/
def SubmitOrder (s : State) (inp : OrderInput) : State × List Trade × Nat :=
  let oid := s.nextOrderId
  let o : Order := mkAgg s inp
  let orders1 := s.orders ++ [o]
  let ob := getOrCreateOrderbook s.orderbook o.Symbol
  let ob1 := if o.Side = Side.Buy then { ob with Bids := ob.Bids ++ [o] }
             else { ob with Asks := ob.Asks ++ [o] }
  let ob2 := sortOrders ob1
  let res := coreScan o s.now orders1 o.Remaining s.nextTradeId
  let finalStatus := if res.broke then OrderStatus.Filled else OrderStatus.Open
  let orders2 := res.list.map (fun od =>
    if od.ID = oid then { od with Remaining := res.rem, Status := finalStatus } else od)
  let tmap1 := res.tmapAdds.foldl
    (fun m p => aset m p.1 ((alookup m p.1).getD [] ++ [p.2])) s.trades
  let tmap2 := aset tmap1 oid ((alookup tmap1 oid).getD [] ++ res.executed)
  ({ s with
     orders := orders2, trades := tmap2,
     orderbook := aset s.orderbook o.Symbol ob2,
     cache := aset s.cache o.Symbol ob2,
     ledger := s.ledger ++ res.executed,
     nextOrderId := oid + 1, nextTradeId := res.tid, now := s.now + 1 },
   res.executed, oid)

/-- Source: `internal/core/engine.go`, `Engine.ModifyOrder`.  The modified
order keeps its `CreatedAt`; its value copy is removed from the book,
re-appended and the book re-sorted. -/
def ModifyOrder (s : State) (orderID : Nat) (clientID : String) (newPrice newQty : ℤ) :
    State × Bool :=
  match s.orders.find? (fun o => o.ID = orderID) with
  | none => (s, false)
  | some o =>
    if o.ClientID ≠ clientID then (s, false)
    else if o.Status ≠ OrderStatus.Open then (s, false)
    else
      let ob := getOrCreateOrderbook s.orderbook o.Symbol
      let ob1 := if o.Side = Side.Buy then { ob with Bids := removeOrder ob.Bids orderID }
                 else { ob with Asks := removeOrder ob.Asks orderID }
      let o' : Order := { o with Price := newPrice, Quantity := newQty, Remaining := newQty }
      let ob2 := if o.Side = Side.Buy then { ob1 with Bids := ob1.Bids ++ [o'] }
                 else { ob1 with Asks := ob1.Asks ++ [o'] }
      let ob3 := sortOrders ob2
      let orders' := s.orders.map (fun od =>
        if od.ID = orderID then
          { od with Price := newPrice, Quantity := newQty, Remaining := newQty }
        else od)
      ({ s with
         orders := orders',
         orderbook := aset s.orderbook o.Symbol ob3,
         cache := aset s.cache o.Symbol ob3,
         now := s.now + 1 }, true)

/-- Source: `internal/core/engine.go`, `Engine.CancelOrder`. -/
def CancelOrder (s : State) (orderID : Nat) (clientID : String) : State × Bool :=
  match s.orders.find? (fun o => o.ID = orderID) with
  | none => (s, false)
  | some o =>
    if o.ClientID ≠ clientID then (s, false)
    else if o.Status ≠ OrderStatus.Open then (s, false)
    else
      let ob := getOrCreateOrderbook s.orderbook o.Symbol
      let ob1 := if o.Side = Side.Buy then { ob with Bids := removeOrder ob.Bids orderID }
                 else { ob with Asks := removeOrder ob.Asks orderID }
      let orders' := s.orders.map (fun od =>
        if od.ID = orderID then
          { od with Status := OrderStatus.Cancelled, Remaining := 0 }
        else od)
      ({ s with
         orders := orders',
         orderbook := aset s.orderbook o.Symbol ob1,
         cache := aset s.cache o.Symbol ob1,
         now := s.now + 1 }, true)

/-- Source: `internal/core/engine.go`, `Engine.GetTradesForOrder` (a Go nil
slice reads as the empty list). -/
def GetTradesForOrder (s : State) (orderID : Nat) : List Trade :=
  (alookup s.trades orderID).getD []

/-- Source: `internal/core/engine.go`, `Engine.GetOrderbook` — cache-first
read (the in-memory cache returns a miss as `nil, nil`, the engine then
falls back to its book map). -/
def GetOrderbook (s : State) (sym : String) : Option OrderbookSnapshot :=
  match alookup s.cache sym with
  | some ob => some ob
  | none => alookup s.orderbook sym

/-- Source: `internal/core/engine.go`, `Engine.SnapshotOrderbook` — stores
a value copy of the current book under a fresh id (also persisted through
the repository, mirrored by the same map). -/
def SnapshotOrderbook (s : State) (sym : String) : State × Option Nat :=
  match alookup s.orderbook sym with
  | none => (s, none)
  | some ob =>
    ({ s with
       snapshots := aset s.snapshots s.nextSnapId ob,
       nextSnapId := s.nextSnapId + 1 }, some s.nextSnapId)

/-- Source: `internal/core/engine.go`, `Engine.RestoreOrderbook` — loads
the snapshot (the repository fallback reads the same stored snapshots) and
installs it as the live book under the key `snap.Symbol`. -/
def RestoreOrderbook (s : State) (snapId : Nat) : State × Bool :=
  match alookup s.snapshots snapId with
  | none => (s, false)
  | some snap => ({ s with orderbook := aset s.orderbook snap.Symbol snap }, true)

/-- Source: `internal/adapter/in_memory/memory_repo.go`,
`MemoryRepo.LoadOpenOrders` — value copies of the stored orders of the
symbol with status OPEN and positive remaining.  The repository's order
store always agrees with the engine's (every submit saves the shared
order, cancel/modify are mirrored), so it is passed as a plain list. -/
def LoadOpenOrders (repoOrders : List Order) (sym : String) : List Order :=
  repoOrders.filter (fun o =>
    decide (o.Symbol = sym) && decide (o.Status = OrderStatus.Open) && decide (0 < o.Remaining))

/-- Source: `internal/core/engine.go`, `Engine.LoadOpenOrdersFromRepo` —
rebuilds the in-memory books of a fresh engine from the repository on
startup, then sorts every book. -/
def LoadOpenOrdersFromRepo (repoOrders : List Order) (syms : List String) : State :=
  let s0 := syms.foldl (fun s sym =>
    let os := LoadOpenOrders repoOrders sym
    let ob := getOrCreateOrderbook s.orderbook sym
    let ob' := os.foldl (fun b o =>
      if o.Side = Side.Buy then { b with Bids := b.Bids ++ [o] }
      else { b with Asks := b.Asks ++ [o] }) ob
    { s with orders := s.orders ++ os, orderbook := aset s.orderbook sym ob' }) initState
  { s0 with orderbook := s0.orderbook.map (fun p => (p.1, sortOrders p.2)) }

/-- The three mutating operations a caller can commit. -/
inductive Op where
  | submit (inp : OrderInput)
  | modify (orderID : Nat) (clientID : String) (newPrice newQty : ℤ)
  | cancel (orderID : Nat) (clientID : String)
deriving DecidableEq, Repr

/-- One committed operation. -/
def stepOp (s : State) : Op → State
  | Op.submit inp => (SubmitOrder s inp).1
  | Op.modify oid cid p q => (ModifyOrder s oid cid p q).1
  | Op.cancel oid cid => (CancelOrder s oid cid).1

/-- The state after a committed sequence of operations on a fresh engine. -/
def runCore (ops : List Op) : State := ops.foldl stepOp initState

end Core

namespace MatchEng

/-- Source: `internal/engine/model.go`, `type Side string`. -/
inductive Side where
  | Buy
  | Sell
deriving DecidableEq, Repr

/-- Source: `internal/engine/model.go`, `type OrderType string`. -/
inductive OrderType where
  | Limit
  | Market
deriving DecidableEq, Repr

/-- Source: `internal/engine/model.go`, `type Order struct` (this engine
has no status field). -/
structure Order where
  ID : Nat
  ClientID : String
  Symbol : String
  Side : Side
  Typ : OrderType
  Price : ℤ
  Quantity : ℤ
  Remaining : ℤ
  CreatedAt : Nat
deriving DecidableEq, Repr

/-- Source: `internal/engine/model.go`, `type Trade struct`. -/
structure Trade where
  ID : Nat
  BuyOrder : Nat
  SellOrder : Nat
  Price : ℤ
  Quantity : ℤ
  Timestamp : Nat
deriving DecidableEq, Repr

/-- Engine state: `internal/engine/engine.go`, `type Engine struct` —
per-symbol order lists and the global trade list — plus fresh-id counters
and the logical clock. -/
structure State where
  orders : List (String × List Order)
  trades : List Trade
  nextOrderId : Nat
  nextTradeId : Nat
  now : Nat
deriving DecidableEq, Repr

/-- Fresh engine (`NewEngine`). -/
def initState : State :=
  { orders := [], trades := [], nextOrderId := 0, nextTradeId := 0, now := 0 }

/-- The candidate comparator of `Engine.match` (source:
`internal/engine/engine.go`): for a buying aggressor ascending price, for a
selling aggressor descending price, `CreatedAt` FIFO at equal prices. -/
def candLess (aggSide : Side) (a b : Order) : Bool :=
  if aggSide = Side.Buy then
    if a.Price = b.Price then decide (a.CreatedAt < b.CreatedAt)
    else decide (a.Price < b.Price)
  else
    if a.Price = b.Price then decide (a.CreatedAt < b.CreatedAt)
    else decide (b.Price < a.Price)

/-- Result of the candidate loop of `Engine.match`: the aggressor's final
remaining, the next trade id, the trades in execution order, and the
remaining-quantity writes applied through the candidate pointers, keyed by
order ID. -/
structure MRes where
  rem : ℤ
  tid : Nat
  trades : List Trade
  upds : List (Nat × ℤ)
deriving DecidableEq, Repr

/-- The candidate loop of `Engine.match` (source:
`internal/engine/engine.go` lines 81–106): stop when the aggressor's
remaining is zero; skip price-incompatible candidates of a LIMIT
aggressor; otherwise trade `min` of the remainders at the candidate's
price. -/
def matchScan (aggSide : Side) (aggTyp : OrderType) (aggPrice : ℤ) (aggId : Nat) (now : Nat) :
    List Order → ℤ → Nat → MRes
  | [], rem, tid => { rem := rem, tid := tid, trades := [], upds := [] }
  | c :: rest, rem, tid =>
    if rem = 0 then { rem := rem, tid := tid, trades := [], upds := [] }
    else if aggTyp ≠ OrderType.Market ∧ aggSide = Side.Buy ∧ aggPrice < c.Price then
      matchScan aggSide aggTyp aggPrice aggId now rest rem tid
    else if aggTyp ≠ OrderType.Market ∧ aggSide = Side.Sell ∧ c.Price < aggPrice then
      matchScan aggSide aggTyp aggPrice aggId now rest rem tid
    else
      let qty := minf rem c.Remaining
      let tr : Trade := { ID := tid,
                          BuyOrder := if aggSide = Side.Buy then aggId else c.ID,
                          SellOrder := if aggSide = Side.Buy then c.ID else aggId,
                          Price := c.Price, Quantity := qty, Timestamp := now }
      let r := matchScan aggSide aggTyp aggPrice aggId now rest (rem - qty) (tid + 1)
      { r with trades := tr :: r.trades, upds := (c.ID, c.Remaining - qty) :: r.upds }

/-- Replay of the in-place `c.Remaining -= qty` writes of `Engine.match`
onto the symbol's order list. -/
def applyUpds (ob : List Order) (upds : List (Nat × ℤ)) : List Order :=
  upds.foldl (fun b p =>
    b.map (fun o => if o.ID = p.1 then { o with Remaining := p.2 } else o)) ob

/-- Client-supplied fields of a submission to `Engine.SubmitOrder` of
`internal/engine` (the caller may pre-set `Remaining`; the gRPC adapter
leaves it zero). -/
structure MInput where
  ClientID : String
  Symbol : String
  Side : Side
  Typ : OrderType
  Price : ℤ
  Quantity : ℤ
  Remaining : ℤ
deriving DecidableEq, Repr

/-- Source: `internal/engine/engine.go`, `Engine.SubmitOrder` together with
`Engine.match`: select and sort the opposite-side candidates with positive
remaining, run the candidate loop, and append the aggressor to the
symbol's order list only if its remaining stays positive.  `mkAggM` is
the order value `Engine.SubmitOrder` constructs (fresh ID, `CreatedAt =
now`, `Remaining` defaulted to `Quantity` when the caller left it
zero). -/
def mkAggM (s : State) (inp : MInput) : Order :=
  { ID := s.nextOrderId, ClientID := inp.ClientID, Symbol := inp.Symbol,
    Side := inp.Side, Typ := inp.Typ, Price := inp.Price, Quantity := inp.Quantity,
    Remaining := if inp.Remaining = 0 then inp.Quantity else inp.Remaining,
    CreatedAt := s.now }

def submitScan (ob : List Order) (agg : Order) (now0 tid0 : Nat) : MRes :=
  let opp := if agg.Side = Side.Buy then Side.Sell else Side.Buy
  let candidates := ob.filter (fun c => decide (c.Side = opp) && decide (0 < c.Remaining))
  let sorted := stableSort (candLess agg.Side) candidates
  matchScan agg.Side agg.Typ agg.Price agg.ID now0 sorted agg.Remaining tid0

def submitBook (ob : List Order) (agg : Order) (now0 tid0 : Nat) : List Order :=
  let res := submitScan ob agg now0 tid0
  let ob1 := applyUpds ob res.upds
  if 0 < res.rem then ob1 ++ [{ agg with Remaining := res.rem }] else ob1

def SubmitOrder (s : State) (inp : MInput) : State × List Trade × Nat :=
  let oid := s.nextOrderId
  let o : Order := mkAggM s inp
  let ob := (alookup s.orders inp.Symbol).getD []
  let res := submitScan ob o s.now s.nextTradeId
  ({ s with
     orders := aset s.orders inp.Symbol (submitBook ob o s.now s.nextTradeId),
     trades := s.trades ++ res.trades,
     nextOrderId := oid + 1, nextTradeId := res.tid, now := s.now + 1 },
   res.trades, oid)

/-- The state after a sequence of submissions on a fresh engine
(`Engine.SubmitOrder` is this engine's only mutating operation). -/
def runEng (ops : List MInput) : State :=
  ops.foldl (fun s inp => (SubmitOrder s inp).1) initState

/-- The symbol's order list (empty when the symbol is unknown). -/
def bookOf (s : State) (sym : String) : List Order :=
  (alookup s.orders sym).getD []

end MatchEng

namespace Core

/-- Sum of the quantities of the trades that reference the order as
`BuyOrder` or `SellOrder` — the Σ of spec §3, invariant 1. -/
def refSum (led : List Trade) (oid : Nat) : ℤ :=
  ((led.filter (fun t => decide (t.BuyOrder = oid) || decide (t.SellOrder = oid))).map
    Trade.Quantity).sum

/-- Price of the best resting bid: the head of the stored bid list, which
the engine keeps sorted best-first. -/
def bestBidPrice (b : OrderbookSnapshot) : Option ℤ := b.Bids.head?.map Order.Price

/-- Price of the best resting ask: the head of the stored ask list, which
the engine keeps sorted best-first. -/
def bestAskPrice (b : OrderbookSnapshot) : Option ℤ := b.Asks.head?.map Order.Price

/-- The no-crossed-book predicate of spec §3, invariant 5, on a stored
book: whenever both sides are non-empty, best bid price < best ask
price. -/
def uncrossedB (b : OrderbookSnapshot) : Bool :=
  match bestBidPrice b, bestAskPrice b with
  | some pb, some pa => decide (pb < pa)
  | _, _ => true

/-- Shorthand for a limit/market submission used by the concrete
scenarios. -/
def mkInp (cid coid sym : String) (sd : Side) (ty : OrderType) (p q : ℤ) : OrderInput :=
  { ClientID := cid, ClientOrderID := coid, Symbol := sym, Side := sd, Typ := ty,
    Price := p, Quantity := q }

end Core

section Counterexamples

open Core

/-- C1, counterexample: the conservation `Quantity = Remaining + Σ(Trade
quantities referencing the order)` fails after a committed Cancel —
cancelling an untraded LIMIT BUY of quantity 5 zeroes `Remaining` while no
trade references the order, so `5 ≠ 0 + 0`. -/
theorem quantity_conservation_cex :
    ¬ (∀ o ∈ (runCore [Op.submit (mkInp "c" "k1" "X" Side.Buy OrderType.Limit 10 5),
                       Op.cancel 0 "c"]).orders,
        o.Quantity = o.Remaining +
          refSum (runCore [Op.submit (mkInp "c" "k1" "X" Side.Buy OrderType.Limit 10 5),
                           Op.cancel 0 "c"]).ledger o.ID) := by
  decide

/-- C2, counterexample: in the core engine the resting book is never
updated by matching (the aggressor is inserted before the matching loop
and filled orders are not removed), so after SELL LIMIT 100×1 followed by
BUY LIMIT 101×1 the committed book of the submitted symbol still shows
best bid 101 ≥ best ask 100 with both sides non-empty — the claimed
`best_bid.Price < best_ask.Price` is false. -/
theorem no_crossed_book_cex :
    let b := getOrCreateOrderbook
      (runCore [Op.submit (mkInp "c" "k1" "X" Side.Sell OrderType.Limit 100 1),
                Op.submit (mkInp "d" "k2" "X" Side.Buy OrderType.Limit 101 1)]).orderbook "X"
    bestBidPrice b = some 101 ∧ bestAskPrice b = some 100 ∧ uncrossedB b = false := by
  decide

/-- C3, counterexample: the core engine's `SubmitOrder` iterates the
unordered orders map (here: insertion order, an admissible iteration
order), not the price-time-sorted book.  On the claimed book {A SELL
101×5 t=1, B SELL 100×3 t=2, C SELL 100×7 t=3} a BUY LIMIT 101×12 trades
against A first: it returns (A,5,101), (B,3,100), (C,4,100) — not the
claimed (B,3,100), (C,7,100), (A,2,101). -/
theorem match_priority_cex :
    let r := SubmitOrder
      (runCore [Op.submit (mkInp "c" "a" "X" Side.Sell OrderType.Limit 101 5),
                Op.submit (mkInp "c" "b" "X" Side.Sell OrderType.Limit 100 3),
                Op.submit (mkInp "c" "cc" "X" Side.Sell OrderType.Limit 100 7)])
      (mkInp "d" "k" "X" Side.Buy OrderType.Limit 101 12)
    r.2.1.map (fun t => (t.SellOrder, t.Quantity, t.Price)) =
      [(0, 5, 101), (1, 3, 100), (2, 4, 100)] ∧
    r.2.1.map (fun t => (t.SellOrder, t.Quantity, t.Price)) ≠
      [(1, 3, 100), (2, 7, 100), (0, 2, 101)] := by
  decide

/-- C4, counterexample: the core engine never assigns PARTIALLY_FILLED; a
partially filled resting order keeps status OPEN with `Remaining <
Quantity`.  After SELL LIMIT 100×10 then BUY LIMIT 100×4, the sell order
has Status = OPEN and Remaining = 6 ≠ Quantity = 10, refuting the claimed
`Status = OPEN ⇒ Remaining = Quantity`. -/
theorem status_remaining_cex :
    ¬ (∀ o ∈ (runCore [Op.submit (mkInp "c" "k1" "X" Side.Sell OrderType.Limit 100 10),
                       Op.submit (mkInp "d" "k2" "X" Side.Buy OrderType.Limit 100 4)]).orders,
        o.Status = OrderStatus.Open → o.Remaining = o.Quantity) := by
  decide

/-- C5, counterexample: the core engine has no market-unfilled-remainder
policy.  A MARKET BUY of quantity 5 against an empty book produces no
trades, but the order stays OPEN with Remaining = 5 (and rests in the
book) instead of becoming CANCELLED with Remaining = 0. -/
theorem market_remainder_cex :
    let r := SubmitOrder initState (mkInp "c" "k1" "X" Side.Buy OrderType.Market 0 5)
    r.2.1 = [] ∧
    r.1.orders.map (fun o => (o.Status, o.Remaining)) = [(OrderStatus.Open, 5)] ∧
    (getOrCreateOrderbook r.1.orderbook "X").Bids.map Order.ID = [0] ∧
    ¬ (∀ o ∈ r.1.orders, o.Typ = OrderType.Market →
        o.Status = OrderStatus.Cancelled ∧ o.Remaining = 0) := by
  decide

/-- C6, counterexample: Modify re-inserts the order with its original
`CreatedAt` (the engine sets no new timestamp), so it keeps — not loses —
its time priority.  With BUY 10×5 at t=0 (ID 0) and BUY 10×3 at t=1
(ID 1), modifying order 0 to the same price leaves it ranked before order
1, contradicting the claimed loss of priority. -/
theorem modify_priority_cex :
    let bs := (getOrCreateOrderbook
      (runCore [Op.submit (mkInp "c" "k1" "X" Side.Buy OrderType.Limit 10 5),
                Op.submit (mkInp "d" "k2" "X" Side.Buy OrderType.Limit 10 3),
                Op.modify 0 "c" 10 5]).orderbook "X").Bids.map Order.ID
    bs = [0, 1] ∧ ¬ (bs.indexOf 1 < bs.indexOf 0) := by
  decide

/-- C7, counterexample: the in-memory book holds stale value copies (the
aggressor is inserted before matching with full remaining, and filled
resting orders are not removed), so the book rebuilt by `LoadOpenOrders`
from the authoritative orders differs from the pre-shutdown book.  After
SELL 100×10 then BUY 100×4 the live book has one (stale) bid, the rebuilt
book has none, and the stale ask shows remaining 10 against the rebuilt
6. -/
theorem recovery_cex :
    let s := runCore [Op.submit (mkInp "c" "k1" "X" Side.Sell OrderType.Limit 100 10),
                      Op.submit (mkInp "d" "k2" "X" Side.Buy OrderType.Limit 100 4)]
    let bPre := getOrCreateOrderbook s.orderbook "X"
    let bPost := getOrCreateOrderbook (LoadOpenOrdersFromRepo s.orders ["X"]).orderbook "X"
    bPre.Bids.length = 1 ∧ bPost.Bids = [] ∧
    bPre.Asks.map Order.Remaining = [10] ∧ bPost.Asks.map Order.Remaining = [6] ∧
    bPost ≠ bPre := by
  decide

/-- C8, counterexample: `Engine.SubmitOrder` performs no ClientOrderID
deduplication — submitting the same payload twice creates two orders with
the same ClientOrderID and distinct IDs, refuting "creates exactly one
order". -/
theorem submit_idempotency_cex :
    let s := runCore [Op.submit (mkInp "c" "k1" "X" Side.Buy OrderType.Limit 10 5),
                      Op.submit (mkInp "c" "k1" "X" Side.Buy OrderType.Limit 10 5)]
    s.orders.map Order.ClientOrderID = ["k1", "k1"] ∧
    s.orders.map Order.ID = [0, 1] ∧ ¬ (s.orders.length = 1) := by
  decide

end Counterexamples

/-- State of the C9 failing run after the submission. -/
def snapRun : Core.State := Core.runCore
  [Core.Op.submit (Core.mkInp "c" "k1" "X" Core.Side.Sell Core.OrderType.Limit 100 10)]

def snapCaptured : Core.OrderbookSnapshot := Core.getOrCreateOrderbook snapRun.orderbook "X"

def snapPair : Core.State × Option Nat := Core.SnapshotOrderbook snapRun "X"

def snapRestored : Core.State × Bool :=
  Core.RestoreOrderbook (Core.CancelOrder snapPair.1 0 "c").1 0

/-- C9, failing run: the engine never assigns `OrderbookSnapshot.Symbol`,
so `RestoreOrderbook` installs the restored snapshot under the empty-string
key instead of the snapshotted symbol.  After SELL 100×10 on "X",
Snapshot("X") (capturing a one-ask book), Cancel, Restore(id): Restore
reports success, but the live view of "X" still shows the post-cancel
empty ask list, while the captured book sits under the key `""`. -/
theorem snapshot_restore_bug :
    snapPair.2 = some 0 ∧ snapRestored.2 = true ∧ snapCaptured.Asks.length = 1 ∧
    (Core.GetOrderbook snapRestored.1 "X").map (fun b => b.Asks.length) = some 0 ∧
    Core.GetOrderbook snapRestored.1 "X" ≠ some snapCaptured ∧
    alookup snapRestored.1.orderbook "" = some snapCaptured := by
  decide

section SortLemmas

/-- `sIns` inserts: the result is a permutation of consing. -/
theorem sIns_perm {α : Type} (less : α → α → Bool) (x : α) (l : List α) :
    (sIns less x l).Perm (x :: l) := by
  induction l with
  | nil => exact List.Perm.refl _
  | cons y ys ih =>
    simp only [sIns]
    split_ifs with h
    · exact (ih.cons y).trans (List.Perm.swap x y ys)
    · exact List.Perm.refl _

/-- `stableSort` permutes its input. -/
theorem stableSort_perm {α : Type} (less : α → α → Bool) (l : List α) :
    (stableSort less l).Perm l := by
  induction l with
  | nil => exact List.Perm.refl _
  | cons x xs ih => exact (sIns_perm less x (stableSort less xs)).trans (ih.cons x)

/-- Membership is preserved by `stableSort`. -/
theorem mem_stableSort {α : Type} (less : α → α → Bool) (x : α) (l : List α) :
    x ∈ stableSort less l ↔ x ∈ l :=
  (stableSort_perm less l).mem_iff

end SortLemmas

section MatchEngTheorems

open MatchEng

/-- Shorthand for a submission to the `internal/engine` engine used by the
concrete scenarios (the gRPC adapter leaves `Remaining` zero). -/
def mkMInp (sd : Side) (ty : OrderType) (p q : ℤ) : MInput :=
  { ClientID := "c", Symbol := "X", Side := sd, Typ := ty, Price := p, Quantity := q,
    Remaining := 0 }

/-- The S2 scenario on the `internal/engine` matcher: submit BUY LIMIT
101×12 against the book {A SELL 101×5 t=0, B SELL 100×3 t=1, C SELL
100×7 t=2}. -/
def s2Submit : MatchEng.State × List MatchEng.Trade × Nat :=
  SubmitOrder (runEng [mkMInp Side.Sell OrderType.Limit 101 5,
                       mkMInp Side.Sell OrderType.Limit 100 3,
                       mkMInp Side.Sell OrderType.Limit 100 7])
    (mkMInp Side.Buy OrderType.Limit 101 12)

/-- C3, amended: the `internal/engine` matcher orders candidates by
ascending price then ascending `CreatedAt` (stable, insertion-order
residual tie-break — not order ID) when matching against asks.  On the
book {A SELL 101×5 t=0 (ID 0), B SELL 100×3 t=1 (ID 1), C SELL 100×7 t=2
(ID 2)}, Submit of BUY LIMIT 101×12 returns exactly (B,3,100), (C,7,100),
(A,2,101) in that order; the buy order is fully filled (it does not rest)
and A remains with 3. -/
theorem match_priority_engine :
    s2Submit.2.1.map (fun t => (t.SellOrder, t.Quantity, t.Price)) =
      [(1, 3, 100), (2, 7, 100), (0, 2, 101)] ∧
    (bookOf s2Submit.1 "X").map (fun o => (o.ID, o.Remaining)) = [(0, 3), (1, 0), (2, 0)] := by
  decide

end MatchEngTheorems

namespace Core

/-- The matching loop permutes no orders and changes no IDs. -/
theorem coreScan_ids (agg : Order) (now : Nat) (l : List Order) :
    ∀ (rem : ℤ) (tid : Nat),
      (coreScan agg now l rem tid).list.map Order.ID = l.map Order.ID := by
  induction l with
  | nil => intro rem tid; rfl
  | cons other rest ih =>
    intro rem tid
    simp only [coreScan]
    split_ifs with h1 h2 h3 h4 h5 h6 h7
    all_goals simp [ih]

/-- When no resting order of the aggressor's symbol is open on the
opposite side, the matching loop is the identity: no trades, no order
changes, no break. -/
theorem coreScan_noMatch (agg : Order) (now : Nat) (l : List Order)
    (h : ∀ o ∈ l, (o.Symbol = agg.Symbol ∧ o.Status = OrderStatus.Open ∧ o.ID ≠ agg.ID) →
      o.Side = agg.Side) :
    ∀ (rem : ℤ) (tid : Nat),
      coreScan agg now l rem tid =
        { list := l, rem := rem, tid := tid, executed := [], tmapAdds := [], broke := false } := by
  induction l with
  | nil => intro rem tid; rfl
  | cons other rest ih =>
    intro rem tid
    have hrest : ∀ o ∈ rest,
        (o.Symbol = agg.Symbol ∧ o.Status = OrderStatus.Open ∧ o.ID ≠ agg.ID) →
        o.Side = agg.Side := fun o ho => h o (List.mem_cons_of_mem _ ho)
    by_cases hc : other.Symbol = agg.Symbol ∧ other.Status = OrderStatus.Open ∧
        other.ID ≠ agg.ID
    · have hside := h other (List.mem_cons_self _ _) hc
      have hb1 : ¬ (agg.Side = Side.Buy ∧ other.Side = Side.Sell ∧
          (agg.Typ = OrderType.Market ∨ other.Price ≤ agg.Price)) := by
        rintro ⟨ha, hs, -⟩
        rw [hside, ha] at hs
        exact (by decide : Side.Buy ≠ Side.Sell) hs
      have hb2 : ¬ (agg.Side = Side.Sell ∧ other.Side = Side.Buy ∧
          (agg.Typ = OrderType.Market ∨ agg.Price ≤ other.Price)) := by
        rintro ⟨ha, hs, -⟩
        rw [hside, ha] at hs
        exact (by decide : Side.Sell ≠ Side.Buy) hs
      simp only [coreScan, if_neg (not_not_intro hc), if_neg hb1, if_neg hb2]
      simp [ih hrest]
    · simp only [coreScan, if_pos hc]
      simp [ih hrest]

end Core

section ALookupLemmas

variable {κ α : Type} [DecidableEq κ]

/-- Reading back the key just written. -/
theorem alookup_aset_self (l : List (κ × α)) (k : κ) (v : α) :
    alookup (aset l k v) k = some v := by
  induction l with
  | nil => simp [aset, alookup]
  | cons p rest ih =>
    by_cases h : p.1 = k
    · simp [aset, alookup, h]
    · simp [aset, alookup, h, ih]

/-- Writing one key does not change another. -/
theorem alookup_aset_ne (l : List (κ × α)) (k k' : κ) (v : α) (h : k' ≠ k) :
    alookup (aset l k v) k' = alookup l k' := by
  induction l with
  | nil => simp [aset, alookup, Ne.symm h]
  | cons p rest ih =>
    by_cases hp : p.1 = k
    · subst hp
      simp [aset, alookup, Ne.symm h, h]
    · by_cases hp' : p.1 = k'
      · simp [aset, alookup, hp, hp', h]
      · simp [aset, alookup, hp, hp', ih]

end ALookupLemmas

namespace Core

/-- C5, amended: the core engine has no market-unfilled-remainder policy.
A MARKET order submitted while no opposite-side order of its symbol is
open produces no trades, is assigned the next fresh ID, and stays in the
orders index OPEN with `Remaining = Quantity`; moreover it rests in the
book (it was inserted before the matching loop and is never removed). -/
theorem market_remainder_amended (s : State) (inp : OrderInput)
    (hm : inp.Typ = OrderType.Market)
    (hempty : ∀ o ∈ s.orders,
      (o.Symbol = inp.Symbol ∧ o.Status = OrderStatus.Open) → o.Side = inp.Side) :
    (SubmitOrder s inp).2.1 = [] ∧
    (SubmitOrder s inp).2.2 = s.nextOrderId ∧
    mkAgg s inp ∈ (SubmitOrder s inp).1.orders ∧
    mkAgg s inp ∈ (if inp.Side = Side.Buy
      then (getOrCreateOrderbook (SubmitOrder s inp).1.orderbook inp.Symbol).Bids
      else (getOrCreateOrderbook (SubmitOrder s inp).1.orderbook inp.Symbol).Asks) := by
  have hyp : ∀ o' ∈ s.orders ++ [mkAgg s inp],
      (o'.Symbol = (mkAgg s inp).Symbol ∧ o'.Status = OrderStatus.Open ∧
        o'.ID ≠ (mkAgg s inp).ID) → o'.Side = (mkAgg s inp).Side := by
    intro o' ho' hc
    rcases List.mem_append.mp ho' with hmem | hmem
    · exact hempty o' hmem ⟨hc.1, hc.2.1⟩
    · rw [List.mem_singleton.mp hmem] at hc
      exact absurd rfl hc.2.2
  have hsc := coreScan_noMatch (mkAgg s inp) s.now (s.orders ++ [mkAgg s inp]) hyp
    (mkAgg s inp).Remaining s.nextTradeId
  refine ⟨?_, rfl, ?_, ?_⟩
  · simp only [SubmitOrder]
    rw [hsc]
  · simp only [SubmitOrder]
    rw [hsc]
    refine List.mem_map.mpr ⟨mkAgg s inp, by simp, ?_⟩
    simp [mkAgg]
  · simp only [SubmitOrder]
    by_cases hside : inp.Side = Side.Buy
    · simp [mkAgg, getOrCreateOrderbook, alookup_aset_self, sortOrders, mem_stableSort, hside]
    · simp [mkAgg, getOrCreateOrderbook, alookup_aset_self, sortOrders, mem_stableSort, hside]

/-- C5, witness: a MARKET BUY of quantity 5 submitted to a book holding
only a same-side (BUY) resting order produces no trades and stays OPEN
with remaining 5, resting among the bids. -/
theorem market_remainder_amended_witness :
    let s := runCore [Op.submit (mkInp "c" "k0" "X" Side.Buy OrderType.Limit 7 2)]
    let inp := mkInp "c" "k1" "X" Side.Buy OrderType.Market 0 5
    (SubmitOrder s inp).2.1 = [] ∧
    (SubmitOrder s inp).2.2 = s.nextOrderId ∧
    mkAgg s inp ∈ (SubmitOrder s inp).1.orders ∧
    mkAgg s inp ∈ (if inp.Side = Side.Buy
      then (getOrCreateOrderbook (SubmitOrder s inp).1.orderbook inp.Symbol).Bids
      else (getOrCreateOrderbook (SubmitOrder s inp).1.orderbook inp.Symbol).Asks) :=
  market_remainder_amended
    (runCore [Op.submit (mkInp "c" "k0" "X" Side.Buy OrderType.Limit 7 2)])
    (mkInp "c" "k1" "X" Side.Buy OrderType.Market 0 5)
    (by decide) (by decide)

/-- Updating the orders list in place at an ID (as the engine does through
the shared order pointer) updates what `find?` by that ID returns. -/
theorem find?_id_map_update (l : List Order) (oid : Nat) (f : Order → Order)
    (hf : ∀ od, (f od).ID = od.ID) (o : Order)
    (h : l.find? (fun od => od.ID = oid) = some o) :
    (l.map (fun od => if od.ID = oid then f od else od)).find? (fun od => od.ID = oid)
      = some (f o) := by
  induction l with
  | nil => simp at h
  | cons a rest ih =>
    by_cases ha : a.ID = oid
    · rw [List.find?_cons_of_pos _ (by simpa using ha)] at h
      rw [List.map_cons, if_pos ha,
        List.find?_cons_of_pos _ (by simpa using (hf a).trans ha)]
      rw [Option.some_inj.mp h]
    · rw [List.find?_cons_of_neg _ (by simpa using ha)] at h
      rw [List.map_cons, if_neg ha, List.find?_cons_of_neg _ (by simpa using ha)]
      exact ih h

/-- C6, amended: a successful Modify on an OPEN order owned by the calling
client reports success and sets `Price := newPrice`, `Quantity := newQty`
and `Remaining := newQty`, while Status stays OPEN and `CreatedAt` is
unchanged.  Because `CreatedAt` is unchanged and the book is re-sorted by
(price, CreatedAt), the order does NOT lose its time priority at an
unchanged price (see `modify_priority_cex`). -/
theorem modify_postcondition (s : State) (orderID : Nat) (clientID : String)
    (newPrice newQty : ℤ) (o : Order)
    (hfind : s.orders.find? (fun od => od.ID = orderID) = some o)
    (hcl : o.ClientID = clientID) (hst : o.Status = OrderStatus.Open) :
    (ModifyOrder s orderID clientID newPrice newQty).2 = true ∧
    ((ModifyOrder s orderID clientID newPrice newQty).1.orders.find?
        (fun od => od.ID = orderID)) =
      some { o with Price := newPrice, Quantity := newQty, Remaining := newQty } := by
  simp only [ModifyOrder, hfind]
  rw [if_neg (by simp [hcl]), if_neg (by simp [hst])]
  exact ⟨rfl, find?_id_map_update s.orders orderID
    (fun od => { od with Price := newPrice, Quantity := newQty, Remaining := newQty })
    (fun od => rfl) o hfind⟩

/-- C6, witness: modifying the single resting BUY 10×5 (ID 0, t=0) of
client "c" to price 11, quantity 7 succeeds and leaves the order OPEN with
the new price and quantities and the original `CreatedAt = 0`. -/
theorem modify_postcondition_witness :
    (ModifyOrder (runCore [Op.submit (mkInp "c" "k1" "X" Side.Buy OrderType.Limit 10 5)])
      0 "c" 11 7).2 = true ∧
    ((ModifyOrder (runCore [Op.submit (mkInp "c" "k1" "X" Side.Buy OrderType.Limit 10 5)])
      0 "c" 11 7).1.orders.find? (fun od => od.ID = 0)) =
      some { ID := 0, ClientID := "c", ClientOrderID := "k1", Symbol := "X",
             Side := Side.Buy, Typ := OrderType.Limit, Price := 11, Quantity := 7,
             Remaining := 7, Status := OrderStatus.Open, CreatedAt := 0 } :=
  modify_postcondition
    (runCore [Op.submit (mkInp "c" "k1" "X" Side.Buy OrderType.Limit 10 5)]) 0 "c" 11 7
    { ID := 0, ClientID := "c", ClientOrderID := "k1", Symbol := "X",
      Side := Side.Buy, Typ := OrderType.Limit, Price := 10, Quantity := 5,
      Remaining := 5, Status := OrderStatus.Open, CreatedAt := 0 }
    (by decide) rfl rfl

/-- C8, amended: the core engine performs no ClientOrderID deduplication —
every submission, duplicate payload or not, appends one new order with a
fresh ID; no existing order is removed or replaced.  Submitting the same
payload twice therefore creates two distinct orders (see
`submit_idempotency_cex`). -/
theorem submit_no_dedup (s : State) (inp : OrderInput)
    (hWF : ∀ o ∈ s.orders, o.ID < s.nextOrderId) :
    (SubmitOrder s inp).1.orders.map Order.ID = s.orders.map Order.ID ++ [s.nextOrderId] ∧
    s.nextOrderId ∉ s.orders.map Order.ID := by
  constructor
  · simp only [SubmitOrder]
    have hpres : ∀ od : Order,
        ((fun od => if od.ID = s.nextOrderId then
          { od with
            Remaining := (coreScan (mkAgg s inp) s.now (s.orders ++ [mkAgg s inp])
              (mkAgg s inp).Remaining s.nextTradeId).rem,
            Status := if (coreScan (mkAgg s inp) s.now (s.orders ++ [mkAgg s inp])
              (mkAgg s inp).Remaining s.nextTradeId).broke
              then OrderStatus.Filled else OrderStatus.Open } else od) od).ID = od.ID := by
      intro od
      by_cases h : od.ID = s.nextOrderId <;> simp [h]
    calc ((coreScan (mkAgg s inp) s.now (s.orders ++ [mkAgg s inp])
            (mkAgg s inp).Remaining s.nextTradeId).list.map _).map Order.ID
        = (coreScan (mkAgg s inp) s.now (s.orders ++ [mkAgg s inp])
            (mkAgg s inp).Remaining s.nextTradeId).list.map Order.ID := by
          rw [List.map_map]
          exact List.map_congr_left (fun a _ => hpres a)
      _ = (s.orders ++ [mkAgg s inp]).map Order.ID := coreScan_ids _ _ _ _ _
      _ = s.orders.map Order.ID ++ [s.nextOrderId] := by simp [mkAgg]
  · intro hmem
    rcases List.mem_map.mp hmem with ⟨o, ho, hid⟩
    exact absurd hid (Nat.ne_of_lt (hWF o ho))

/-- Total quantity of a list of trades. -/
def tradeQSum (ts : List Trade) : ℤ := (ts.map Trade.Quantity).sum

theorem tradeQSum_nil : tradeQSum [] = 0 := rfl

theorem tradeQSum_cons (t : Trade) (ts : List Trade) :
    tradeQSum (t :: ts) = t.Quantity + tradeQSum ts := by
  simp [tradeQSum]

theorem refSum_nil (oid : Nat) : refSum [] oid = 0 := rfl

theorem refSum_cons (t : Trade) (ts : List Trade) (oid : Nat) :
    refSum (t :: ts) oid =
      (if t.BuyOrder = oid ∨ t.SellOrder = oid then t.Quantity else 0) + refSum ts oid := by
  by_cases h : t.BuyOrder = oid ∨ t.SellOrder = oid
  · simp only [refSum, List.filter_cons]
    rw [if_pos (by simpa using h), if_pos h]
    simp
  · simp only [refSum, List.filter_cons]
    rw [if_neg (by simpa using h), if_neg h]
    simp

theorem refSum_append (a b : List Trade) (oid : Nat) :
    refSum (a ++ b) oid = refSum a oid + refSum b oid := by
  induction a with
  | nil => simp [refSum_nil, refSum]
  | cons t ts ih =>
    rw [List.cons_append, refSum_cons, refSum_cons, ih]
    ring

theorem refSum_eq_zero (ts : List Trade) (oid : Nat)
    (h : ∀ t ∈ ts, t.BuyOrder ≠ oid ∧ t.SellOrder ≠ oid) : refSum ts oid = 0 := by
  induction ts with
  | nil => rfl
  | cons t rest ih =>
    rw [refSum_cons, if_neg (by
      rcases h t (List.mem_cons_self _ _) with ⟨h1, h2⟩
      rintro (hh | hh)
      exacts [h1 hh, h2 hh])]
    rw [ih (fun u hu => h u (List.mem_cons_of_mem _ hu))]
    ring

theorem minf_le_left (a b : ℤ) : minf a b ≤ a := by
  unfold minf; split_ifs with h <;> omega

theorem minf_le_right (a b : ℤ) : minf a b ≤ b := by
  unfold minf; split_ifs with h <;> omega

/-- Trade accounting of the matching loop: the aggressor's remaining drops
by exactly the total traded quantity, and every created trade references
the aggressor on its own side and a distinct order of the scanned list on
the other. -/
theorem coreScan_trades (agg : Order) (now : Nat) : ∀ (l : List Order) (rem : ℤ) (tid : Nat),
    (coreScan agg now l rem tid).rem = rem - tradeQSum (coreScan agg now l rem tid).executed ∧
    ∀ t ∈ (coreScan agg now l rem tid).executed,
      ((t.BuyOrder = agg.ID ∧ t.SellOrder ≠ agg.ID ∧ t.SellOrder ∈ l.map Order.ID) ∨
       (t.SellOrder = agg.ID ∧ t.BuyOrder ≠ agg.ID ∧ t.BuyOrder ∈ l.map Order.ID)) := by
  intro l
  induction l with
  | nil =>
    intro rem tid
    refine ⟨by simp [coreScan, tradeQSum_nil], by simp [coreScan]⟩
  | cons other rest ih =>
    intro rem tid
    by_cases hc : other.Symbol = agg.Symbol ∧ other.Status = OrderStatus.Open ∧
        other.ID ≠ agg.ID
    · by_cases hb1 : agg.Side = Side.Buy ∧ other.Side = Side.Sell ∧
          (agg.Typ = OrderType.Market ∨ other.Price ≤ agg.Price)
      · by_cases hq : minf rem other.Remaining ≤ 0
        · simp only [coreScan, if_neg (not_not_intro hc), if_pos hb1, if_pos hq]
          exact ⟨(ih rem tid).1, fun t ht =>
            (((ih rem tid).2 t ht).imp
              (fun h => ⟨h.1, h.2.1, List.mem_cons_of_mem _ h.2.2⟩)
              (fun h => ⟨h.1, h.2.1, List.mem_cons_of_mem _ h.2.2⟩))⟩
        · by_cases hbr : rem - minf rem other.Remaining ≤ 0
          · simp only [coreScan, if_neg (not_not_intro hc), if_pos hb1, if_neg hq,
              if_pos hbr]
            refine ⟨by simp [tradeQSum_cons, tradeQSum_nil], ?_⟩
            intro t ht
            rcases List.mem_singleton.mp ht with rfl
            exact Or.inl ⟨rfl, by simpa using hc.2.2, by simp⟩
          · simp only [coreScan, if_neg (not_not_intro hc), if_pos hb1, if_neg hq,
              if_neg hbr]
            refine ⟨?_, ?_⟩
            · have h1 := (ih (rem - minf rem other.Remaining) (tid + 1)).1
              simp only [tradeQSum_cons]
              omega
            · intro t ht
              rcases List.mem_cons.mp ht with rfl | ht'
              · exact Or.inl ⟨rfl, by simpa using hc.2.2, by simp⟩
              · exact (((ih (rem - minf rem other.Remaining) (tid + 1)).2 t ht').imp
                  (fun h => ⟨h.1, h.2.1, List.mem_cons_of_mem _ h.2.2⟩)
                  (fun h => ⟨h.1, h.2.1, List.mem_cons_of_mem _ h.2.2⟩))
      · by_cases hb2 : agg.Side = Side.Sell ∧ other.Side = Side.Buy ∧
            (agg.Typ = OrderType.Market ∨ agg.Price ≤ other.Price)
        · by_cases hq : minf rem other.Remaining ≤ 0
          · simp only [coreScan, if_neg (not_not_intro hc), if_neg hb1, if_pos hb2,
              if_pos hq]
            exact ⟨(ih rem tid).1, fun t ht =>
              (((ih rem tid).2 t ht).imp
                (fun h => ⟨h.1, h.2.1, List.mem_cons_of_mem _ h.2.2⟩)
                (fun h => ⟨h.1, h.2.1, List.mem_cons_of_mem _ h.2.2⟩))⟩
          · by_cases hbr : rem - minf rem other.Remaining ≤ 0
            · simp only [coreScan, if_neg (not_not_intro hc), if_neg hb1, if_pos hb2,
                if_neg hq, if_pos hbr]
              refine ⟨by simp [tradeQSum_cons, tradeQSum_nil], ?_⟩
              intro t ht
              rcases List.mem_singleton.mp ht with rfl
              exact Or.inr ⟨rfl, by simpa using hc.2.2, by simp⟩
            · simp only [coreScan, if_neg (not_not_intro hc), if_neg hb1, if_pos hb2,
                if_neg hq, if_neg hbr]
              refine ⟨?_, ?_⟩
              · have h1 := (ih (rem - minf rem other.Remaining) (tid + 1)).1
                simp only [tradeQSum_cons]
                omega
              · intro t ht
                rcases List.mem_cons.mp ht with rfl | ht'
                · exact Or.inr ⟨rfl, by simpa using hc.2.2, by simp⟩
                · exact (((ih (rem - minf rem other.Remaining) (tid + 1)).2 t ht').imp
                    (fun h => ⟨h.1, h.2.1, List.mem_cons_of_mem _ h.2.2⟩)
                    (fun h => ⟨h.1, h.2.1, List.mem_cons_of_mem _ h.2.2⟩))
        · simp only [coreScan, if_neg (not_not_intro hc), if_neg hb1, if_neg hb2]
          exact ⟨(ih rem tid).1, fun t ht =>
            (((ih rem tid).2 t ht).imp
              (fun h => ⟨h.1, h.2.1, List.mem_cons_of_mem _ h.2.2⟩)
              (fun h => ⟨h.1, h.2.1, List.mem_cons_of_mem _ h.2.2⟩))⟩
    · simp only [coreScan, if_pos hc]
      exact ⟨(ih rem tid).1, fun t ht =>
        (((ih rem tid).2 t ht).imp
          (fun h => ⟨h.1, h.2.1, List.mem_cons_of_mem _ h.2.2⟩)
          (fun h => ⟨h.1, h.2.1, List.mem_cons_of_mem _ h.2.2⟩))⟩

/-- Every per-counterparty trade-index append of the matching loop is
keyed by the ID of a scanned order other than the aggressor. -/
theorem coreScan_tmapKeys (agg : Order) (now : Nat) : ∀ (l : List Order) (rem : ℤ) (tid : Nat),
    ∀ p ∈ (coreScan agg now l rem tid).tmapAdds, p.1 ∈ l.map Order.ID ∧ p.1 ≠ agg.ID := by
  intro l
  induction l with
  | nil => intro rem tid p hp; simp [coreScan] at hp
  | cons other rest ih =>
    intro rem tid p hp
    by_cases hc : other.Symbol = agg.Symbol ∧ other.Status = OrderStatus.Open ∧
        other.ID ≠ agg.ID
    · by_cases hb1 : agg.Side = Side.Buy ∧ other.Side = Side.Sell ∧
          (agg.Typ = OrderType.Market ∨ other.Price ≤ agg.Price)
      · by_cases hq : minf rem other.Remaining ≤ 0
        · simp only [coreScan, if_neg (not_not_intro hc), if_pos hb1, if_pos hq] at hp
          exact ⟨List.mem_cons_of_mem _ (ih rem tid p hp).1, (ih rem tid p hp).2⟩
        · by_cases hbr : rem - minf rem other.Remaining ≤ 0
          · simp only [coreScan, if_neg (not_not_intro hc), if_pos hb1, if_neg hq,
              if_pos hbr] at hp
            simp at hp
          · simp only [coreScan, if_neg (not_not_intro hc), if_pos hb1, if_neg hq,
              if_neg hbr] at hp
            rcases List.mem_cons.mp hp with rfl | hp'
            · exact ⟨by simp, hc.2.2⟩
            · exact ⟨List.mem_cons_of_mem _
                (ih (rem - minf rem other.Remaining) (tid + 1) p hp').1,
                (ih (rem - minf rem other.Remaining) (tid + 1) p hp').2⟩
      · by_cases hb2 : agg.Side = Side.Sell ∧ other.Side = Side.Buy ∧
            (agg.Typ = OrderType.Market ∨ agg.Price ≤ other.Price)
        · by_cases hq : minf rem other.Remaining ≤ 0
          · simp only [coreScan, if_neg (not_not_intro hc), if_neg hb1, if_pos hb2,
              if_pos hq] at hp
            exact ⟨List.mem_cons_of_mem _ (ih rem tid p hp).1, (ih rem tid p hp).2⟩
          · by_cases hbr : rem - minf rem other.Remaining ≤ 0
            · simp only [coreScan, if_neg (not_not_intro hc), if_neg hb1, if_pos hb2,
                if_neg hq, if_pos hbr] at hp
              simp at hp
            · simp only [coreScan, if_neg (not_not_intro hc), if_neg hb1, if_pos hb2,
                if_neg hq, if_neg hbr] at hp
              rcases List.mem_cons.mp hp with rfl | hp'
              · exact ⟨by simp, hc.2.2⟩
              · exact ⟨List.mem_cons_of_mem _
                  (ih (rem - minf rem other.Remaining) (tid + 1) p hp').1,
                  (ih (rem - minf rem other.Remaining) (tid + 1) p hp').2⟩
        · simp only [coreScan, if_neg (not_not_intro hc), if_neg hb1, if_neg hb2] at hp
          exact ⟨List.mem_cons_of_mem _ (ih rem tid p hp).1, (ih rem tid p hp).2⟩
    · simp only [coreScan, if_pos hc] at hp
      exact ⟨List.mem_cons_of_mem _ (ih rem tid p hp).1, (ih rem tid p hp).2⟩

/-- Remaining-quantity bounds of the matching loop: the aggressor's
remaining never goes negative nor increases; it is exactly zero on a
break, and stays positive when the loop ends without a break on a
positive start. -/
theorem coreScan_rem (agg : Order) (now : Nat) : ∀ (l : List Order) (rem : ℤ) (tid : Nat),
    0 ≤ rem →
    0 ≤ (coreScan agg now l rem tid).rem ∧
    (coreScan agg now l rem tid).rem ≤ rem ∧
    ((coreScan agg now l rem tid).broke = true → (coreScan agg now l rem tid).rem = 0) ∧
    ((coreScan agg now l rem tid).broke = false → 0 < rem →
      0 < (coreScan agg now l rem tid).rem) := by
  intro l
  induction l with
  | nil =>
    intro rem tid h0
    simp only [coreScan]
    exact ⟨h0, le_refl _, fun h => by simp at h, fun _ h => h⟩
  | cons other rest ih =>
    intro rem tid h0
    have hml := minf_le_left rem other.Remaining
    by_cases hc : other.Symbol = agg.Symbol ∧ other.Status = OrderStatus.Open ∧
        other.ID ≠ agg.ID
    · by_cases hb1 : agg.Side = Side.Buy ∧ other.Side = Side.Sell ∧
          (agg.Typ = OrderType.Market ∨ other.Price ≤ agg.Price)
      · by_cases hq : minf rem other.Remaining ≤ 0
        · simp only [coreScan, if_neg (not_not_intro hc), if_pos hb1, if_pos hq]
          exact ih rem tid h0
        · by_cases hbr : rem - minf rem other.Remaining ≤ 0
          · simp only [coreScan, if_neg (not_not_intro hc), if_pos hb1, if_neg hq,
              if_pos hbr]
            refine ⟨by omega, by omega, fun _ => by omega, fun h => by simp at h⟩
          · simp only [coreScan, if_neg (not_not_intro hc), if_pos hb1, if_neg hq,
              if_neg hbr]
            have := ih (rem - minf rem other.Remaining) (tid + 1) (by omega)
            exact ⟨this.1, by have := this.2.1; omega, this.2.2.1,
              fun hb _ => this.2.2.2 hb (by omega)⟩
      · by_cases hb2 : agg.Side = Side.Sell ∧ other.Side = Side.Buy ∧
            (agg.Typ = OrderType.Market ∨ agg.Price ≤ other.Price)
        · by_cases hq : minf rem other.Remaining ≤ 0
          · simp only [coreScan, if_neg (not_not_intro hc), if_neg hb1, if_pos hb2,
              if_pos hq]
            exact ih rem tid h0
          · by_cases hbr : rem - minf rem other.Remaining ≤ 0
            · simp only [coreScan, if_neg (not_not_intro hc), if_neg hb1, if_pos hb2,
                if_neg hq, if_pos hbr]
              refine ⟨by omega, by omega, fun _ => by omega, fun h => by simp at h⟩
            · simp only [coreScan, if_neg (not_not_intro hc), if_neg hb1, if_pos hb2,
                if_neg hq, if_neg hbr]
              have := ih (rem - minf rem other.Remaining) (tid + 1) (by omega)
              exact ⟨this.1, by have := this.2.1; omega, this.2.2.1,
                fun hb _ => this.2.2.2 hb (by omega)⟩
        · simp only [coreScan, if_neg (not_not_intro hc), if_neg hb1, if_neg hb2]
          exact ih rem tid h0
    · simp only [coreScan, if_pos hc]
      exact ih rem tid h0

/-- Per-order property transport through the matching loop: any predicate
preserved by a single fill update holds for every order the loop
returns. -/
theorem coreScan_preserves (agg : Order) (now : Nat) (P : Order → Prop)
    (hP : ∀ (o : Order) (q : ℤ), P o → o.Status = OrderStatus.Open → 0 < q →
      q ≤ o.Remaining →
      P { o with Remaining := o.Remaining - q,
                 Status := if o.Remaining - q ≤ 0 then OrderStatus.Filled else o.Status }) :
    ∀ (l : List Order) (rem : ℤ) (tid : Nat), (∀ o ∈ l, P o) →
      ∀ o' ∈ (coreScan agg now l rem tid).list, P o' := by
  intro l
  induction l with
  | nil => intro rem tid _ o' ho'; simp [coreScan] at ho'
  | cons other rest ih =>
    intro rem tid hl o' ho'
    have hhd := hl other (List.mem_cons_self _ _)
    have htl : ∀ o ∈ rest, P o := fun o ho => hl o (List.mem_cons_of_mem _ ho)
    by_cases hc : other.Symbol = agg.Symbol ∧ other.Status = OrderStatus.Open ∧
        other.ID ≠ agg.ID
    · by_cases hb1 : agg.Side = Side.Buy ∧ other.Side = Side.Sell ∧
          (agg.Typ = OrderType.Market ∨ other.Price ≤ agg.Price)
      · by_cases hq : minf rem other.Remaining ≤ 0
        · simp only [coreScan, if_neg (not_not_intro hc), if_pos hb1, if_pos hq] at ho'
          rcases List.mem_cons.mp ho' with rfl | ho''
          · exact hhd
          · exact ih rem tid htl o' ho''
        · have hP' := hP other (minf rem other.Remaining) hhd hc.2.1 (by omega)
            (minf_le_right _ _)
          by_cases hbr : rem - minf rem other.Remaining ≤ 0
          · simp only [coreScan, if_neg (not_not_intro hc), if_pos hb1, if_neg hq,
              if_pos hbr] at ho'
            rcases List.mem_cons.mp ho' with rfl | ho''
            · exact hP'
            · exact htl o' ho''
          · simp only [coreScan, if_neg (not_not_intro hc), if_pos hb1, if_neg hq,
              if_neg hbr] at ho'
            rcases List.mem_cons.mp ho' with rfl | ho''
            · exact hP'
            · exact ih (rem - minf rem other.Remaining) (tid + 1) htl o' ho''
      · by_cases hb2 : agg.Side = Side.Sell ∧ other.Side = Side.Buy ∧
            (agg.Typ = OrderType.Market ∨ agg.Price ≤ other.Price)
        · by_cases hq : minf rem other.Remaining ≤ 0
          · simp only [coreScan, if_neg (not_not_intro hc), if_neg hb1, if_pos hb2,
              if_pos hq] at ho'
            rcases List.mem_cons.mp ho' with rfl | ho''
            · exact hhd
            · exact ih rem tid htl o' ho''
          · have hP' := hP other (minf rem other.Remaining) hhd hc.2.1 (by omega)
              (minf_le_right _ _)
            by_cases hbr : rem - minf rem other.Remaining ≤ 0
            · simp only [coreScan, if_neg (not_not_intro hc), if_neg hb1, if_pos hb2,
                if_neg hq, if_pos hbr] at ho'
              rcases List.mem_cons.mp ho' with rfl | ho''
              · exact hP'
              · exact htl o' ho''
            · simp only [coreScan, if_neg (not_not_intro hc), if_neg hb1, if_pos hb2,
                if_neg hq, if_neg hbr] at ho'
              rcases List.mem_cons.mp ho' with rfl | ho''
              · exact hP'
              · exact ih (rem - minf rem other.Remaining) (tid + 1) htl o' ho''
        · simp only [coreScan, if_neg (not_not_intro hc), if_neg hb1, if_neg hb2] at ho'
          rcases List.mem_cons.mp ho' with rfl | ho''
          · exact hhd
          · exact ih rem tid htl o' ho''
    · simp only [coreScan, if_pos hc] at ho'
      rcases List.mem_cons.mp ho' with rfl | ho''
      · exact hhd
      · exact ih rem tid htl o' ho''

/-- No trade of the matching loop references an order ID that is neither
the aggressor's nor in the scanned list. -/
theorem coreScan_refSum_zero (agg : Order) (now : Nat) (l : List Order) (rem : ℤ)
    (tid : Nat) (oid : Nat) (hne : oid ≠ agg.ID) (hnm : oid ∉ l.map Order.ID) :
    refSum (coreScan agg now l rem tid).executed oid = 0 := by
  apply refSum_eq_zero
  intro t ht
  rcases (coreScan_trades agg now l rem tid).2 t ht with ⟨hb, _, hm⟩ | ⟨hb, _, hm⟩
  · exact ⟨by rw [hb]; exact fun h => hne h.symm, fun h => hnm (h ▸ hm)⟩
  · exact ⟨fun h => hnm (h ▸ hm), by rw [hb]; exact fun h => hne h.symm⟩

/-- Conservation correspondence of the matching loop: every order the loop
returns descends from a scanned order with the same ID and quantity; the
aggressor's stale entry is untouched, and any other order's remaining
drops by exactly the quantity of the loop's trades that reference it. -/
theorem coreScan_conserve (agg : Order) (now : Nat) : ∀ (l : List Order) (rem : ℤ) (tid : Nat),
    (l.map Order.ID).Nodup →
    ∀ o' ∈ (coreScan agg now l rem tid).list,
      ∃ o ∈ l, o'.ID = o.ID ∧ o'.Quantity = o.Quantity ∧
        (o.ID = agg.ID → o' = o) ∧
        (o.ID ≠ agg.ID →
          o'.Remaining = o.Remaining - refSum (coreScan agg now l rem tid).executed o.ID) := by
  intro l
  induction l with
  | nil => intro rem tid _ o' ho'; simp [coreScan] at ho'
  | cons other rest ih =>
    intro rem tid hnd o' ho'
    rw [List.map_cons, List.nodup_cons] at hnd
    obtain ⟨hno, hnd'⟩ := hnd
    by_cases hc : other.Symbol = agg.Symbol ∧ other.Status = OrderStatus.Open ∧
        other.ID ≠ agg.ID
    · by_cases hb1 : agg.Side = Side.Buy ∧ other.Side = Side.Sell ∧
          (agg.Typ = OrderType.Market ∨ other.Price ≤ agg.Price)
      · by_cases hq : minf rem other.Remaining ≤ 0
        · simp only [coreScan, if_neg (not_not_intro hc), if_pos hb1, if_pos hq] at ho' ⊢
          rcases List.mem_cons.mp ho' with rfl | ho''
          · exact ⟨o', List.mem_cons_self _ _, rfl, rfl, fun _ => rfl, fun hne => by
              rw [coreScan_refSum_zero agg now rest rem tid o'.ID hne hno]; ring⟩
          · obtain ⟨o, ho, h1, h2, h3, h4⟩ := ih rem tid hnd' o' ho''
            exact ⟨o, List.mem_cons_of_mem _ ho, h1, h2, h3, h4⟩
        · by_cases hbr : rem - minf rem other.Remaining ≤ 0
          · simp only [coreScan, if_neg (not_not_intro hc), if_pos hb1, if_neg hq,
              if_pos hbr] at ho' ⊢
            rcases List.mem_cons.mp ho' with rfl | ho''
            · refine ⟨other, List.mem_cons_self _ _, rfl, rfl,
                fun h => absurd h hc.2.2, fun hne => ?_⟩
              rw [refSum_cons, refSum_nil, if_pos (Or.inr rfl)]
              ring
            · refine ⟨o', List.mem_cons_of_mem _ ho'', rfl, rfl, fun _ => rfl,
                fun hne => ?_⟩
              have hido : o'.ID ∈ rest.map Order.ID := List.mem_map_of_mem _ ho''
              have hoo : other.ID ≠ o'.ID := fun h => hno (by rw [h]; exact hido)
              rw [refSum_cons, refSum_nil]
              simp [Ne.symm hne, hoo]
          · simp only [coreScan, if_neg (not_not_intro hc), if_pos hb1, if_neg hq,
              if_neg hbr] at ho' ⊢
            rcases List.mem_cons.mp ho' with rfl | ho''
            · refine ⟨other, List.mem_cons_self _ _, rfl, rfl,
                fun h => absurd h hc.2.2, fun hne => ?_⟩
              rw [refSum_cons, if_pos (Or.inr rfl),
                coreScan_refSum_zero agg now rest (rem - minf rem other.Remaining)
                  (tid + 1) other.ID hc.2.2 hno]
              dsimp only
              ring
            · obtain ⟨o, ho, h1, h2, h3, h4⟩ :=
                ih (rem - minf rem other.Remaining) (tid + 1) hnd' o' ho''
              refine ⟨o, List.mem_cons_of_mem _ ho, h1, h2, h3, fun hne => ?_⟩
              have hido : o.ID ∈ rest.map Order.ID := List.mem_map_of_mem _ ho
              have hoo : other.ID ≠ o.ID := fun h => hno (by rw [h]; exact hido)
              rw [refSum_cons]
              simpa [Ne.symm hne, hoo] using h4 hne
      · by_cases hb2 : agg.Side = Side.Sell ∧ other.Side = Side.Buy ∧
            (agg.Typ = OrderType.Market ∨ agg.Price ≤ other.Price)
        · by_cases hq : minf rem other.Remaining ≤ 0
          · simp only [coreScan, if_neg (not_not_intro hc), if_neg hb1, if_pos hb2,
              if_pos hq] at ho' ⊢
            rcases List.mem_cons.mp ho' with rfl | ho''
            · exact ⟨o', List.mem_cons_self _ _, rfl, rfl, fun _ => rfl, fun hne => by
                rw [coreScan_refSum_zero agg now rest rem tid o'.ID hne hno]; ring⟩
            · obtain ⟨o, ho, h1, h2, h3, h4⟩ := ih rem tid hnd' o' ho''
              exact ⟨o, List.mem_cons_of_mem _ ho, h1, h2, h3, h4⟩
          · by_cases hbr : rem - minf rem other.Remaining ≤ 0
            · simp only [coreScan, if_neg (not_not_intro hc), if_neg hb1, if_pos hb2,
                if_neg hq, if_pos hbr] at ho' ⊢
              rcases List.mem_cons.mp ho' with rfl | ho''
              · refine ⟨other, List.mem_cons_self _ _, rfl, rfl,
                  fun h => absurd h hc.2.2, fun hne => ?_⟩
                rw [refSum_cons, refSum_nil, if_pos (Or.inl rfl)]
                ring
              · refine ⟨o', List.mem_cons_of_mem _ ho'', rfl, rfl, fun _ => rfl,
                  fun hne => ?_⟩
                have hido : o'.ID ∈ rest.map Order.ID := List.mem_map_of_mem _ ho''
                have hoo : other.ID ≠ o'.ID := fun h => hno (by rw [h]; exact hido)
                rw [refSum_cons, refSum_nil]
                simp [Ne.symm hne, hoo]
            · simp only [coreScan, if_neg (not_not_intro hc), if_neg hb1, if_pos hb2,
                if_neg hq, if_neg hbr] at ho' ⊢
              rcases List.mem_cons.mp ho' with rfl | ho''
              · refine ⟨other, List.mem_cons_self _ _, rfl, rfl,
                  fun h => absurd h hc.2.2, fun hne => ?_⟩
                rw [refSum_cons, if_pos (Or.inl rfl),
                  coreScan_refSum_zero agg now rest (rem - minf rem other.Remaining)
                    (tid + 1) other.ID hc.2.2 hno]
                dsimp only
                ring
              · obtain ⟨o, ho, h1, h2, h3, h4⟩ :=
                  ih (rem - minf rem other.Remaining) (tid + 1) hnd' o' ho''
                refine ⟨o, List.mem_cons_of_mem _ ho, h1, h2, h3, fun hne => ?_⟩
                have hido : o.ID ∈ rest.map Order.ID := List.mem_map_of_mem _ ho
                have hoo : other.ID ≠ o.ID := fun h => hno (by rw [h]; exact hido)
                rw [refSum_cons]
                simpa [Ne.symm hne, hoo] using h4 hne
        · simp only [coreScan, if_neg (not_not_intro hc), if_neg hb1, if_neg hb2]
            at ho' ⊢
          rcases List.mem_cons.mp ho' with rfl | ho''
          · exact ⟨o', List.mem_cons_self _ _, rfl, rfl, fun _ => rfl, fun hne => by
              rw [coreScan_refSum_zero agg now rest rem tid o'.ID hne hno]; ring⟩
          · obtain ⟨o, ho, h1, h2, h3, h4⟩ := ih rem tid hnd' o' ho''
            exact ⟨o, List.mem_cons_of_mem _ ho, h1, h2, h3, h4⟩
    · simp only [coreScan, if_pos hc] at ho' ⊢
      rcases List.mem_cons.mp ho' with rfl | ho''
      · exact ⟨o', List.mem_cons_self _ _, rfl, rfl, fun _ => rfl, fun hne => by
          rw [coreScan_refSum_zero agg now rest rem tid o'.ID hne hno]; ring⟩
      · obtain ⟨o, ho, h1, h2, h3, h4⟩ := ih rem tid hnd' o' ho''
        exact ⟨o, List.mem_cons_of_mem _ ho, h1, h2, h3, h4⟩

/-- A pointwise ID-preserving rewrite of the orders list keeps the ID
sequence. -/
theorem map_ids_of_preserve (l : List Order) (f : Order → Order)
    (hf : ∀ od, (f od).ID = od.ID) : (l.map f).map Order.ID = l.map Order.ID := by
  rw [List.map_map]
  exact List.map_congr_left fun a _ => hf a

/-- `SubmitOrder` appends exactly one ID, the fresh one, to the ID
sequence of the orders index. -/
theorem submit_orders_ids (s : State) (inp : OrderInput) :
    (SubmitOrder s inp).1.orders.map Order.ID = s.orders.map Order.ID ++ [s.nextOrderId] := by
  simp only [SubmitOrder]
  have hpres : ∀ od : Order,
      ((fun od => if od.ID = s.nextOrderId then
        { od with
          Remaining := (coreScan (mkAgg s inp) s.now (s.orders ++ [mkAgg s inp])
            (mkAgg s inp).Remaining s.nextTradeId).rem,
          Status := if (coreScan (mkAgg s inp) s.now (s.orders ++ [mkAgg s inp])
            (mkAgg s inp).Remaining s.nextTradeId).broke
            then OrderStatus.Filled else OrderStatus.Open } else od) od).ID = od.ID := by
    intro od
    by_cases h : od.ID = s.nextOrderId <;> simp [h]
  calc ((coreScan (mkAgg s inp) s.now (s.orders ++ [mkAgg s inp])
          (mkAgg s inp).Remaining s.nextTradeId).list.map _).map Order.ID
      = (coreScan (mkAgg s inp) s.now (s.orders ++ [mkAgg s inp])
          (mkAgg s inp).Remaining s.nextTradeId).list.map Order.ID := by
        rw [List.map_map]
        exact List.map_congr_left (fun a _ => hpres a)
    _ = (s.orders ++ [mkAgg s inp]).map Order.ID := coreScan_ids _ _ _ _ _
    _ = s.orders.map Order.ID ++ [s.nextOrderId] := by simp [mkAgg]

/-- Keys present after a map write: the written key or an old key. -/
theorem aset_keys {κ α : Type} [DecidableEq κ] (m : List (κ × α)) (k : κ) (v : α) :
    ∀ p ∈ aset m k v, p.1 = k ∨ p.1 ∈ m.map Prod.fst := by
  induction m with
  | nil =>
    intro p hp
    rw [List.mem_singleton.mp hp]
    exact Or.inl rfl
  | cons q rest ih =>
    intro p hp
    by_cases h : q.1 = k
    · simp only [aset, if_pos h] at hp
      rcases List.mem_cons.mp hp with rfl | hp'
      · exact Or.inl rfl
      · exact Or.inr (List.mem_cons_of_mem _ (List.mem_map_of_mem _ hp'))
    · simp only [aset, if_neg h] at hp
      rcases List.mem_cons.mp hp with rfl | hp'
      · exact Or.inr (by simp)
      · rcases ih p hp' with h1 | h1
        · exact Or.inl h1
        · exact Or.inr (List.mem_cons_of_mem _ h1)

/-- Keys present after replaying the per-counterparty trade-index
appends: an old key or one of the appended keys. -/
theorem foldl_aset_keys (adds : List (Nat × Trade)) :
    ∀ (m0 : List (Nat × List Trade)),
      ∀ p ∈ adds.foldl (fun m q => aset m q.1 ((alookup m q.1).getD [] ++ [q.2])) m0,
      p.1 ∈ m0.map Prod.fst ∨ p.1 ∈ adds.map Prod.fst := by
  induction adds with
  | nil => intro m0 p hp; exact Or.inl (List.mem_map_of_mem _ hp)
  | cons a rest ih =>
    intro m0 p hp
    rw [List.foldl_cons] at hp
    rcases ih _ p hp with h | h
    · rcases List.mem_map.mp h with ⟨q, hq, hq1⟩
      rcases aset_keys m0 a.1 _ q hq with h1 | h1
      · exact Or.inr (by rw [← hq1, h1]; simp)
      · exact Or.inl (by rw [← hq1]; exact h1)
    · exact Or.inr (by rw [List.map_cons]; exact List.mem_cons_of_mem _ h)

/-- A key never appended keeps its trade-index entry through the replay of
the per-counterparty appends. -/
theorem foldl_aset_lookup_ne (adds : List (Nat × Trade)) (k : Nat)
    (hk : ∀ p ∈ adds, p.1 ≠ k) :
    ∀ m0 : List (Nat × List Trade),
      alookup (adds.foldl (fun m q => aset m q.1 ((alookup m q.1).getD [] ++ [q.2])) m0) k
        = alookup m0 k := by
  induction adds with
  | nil => intro m0; rfl
  | cons a rest ih =>
    intro m0
    rw [List.foldl_cons, ih (fun p hp => hk p (List.mem_cons_of_mem _ hp))]
    exact alookup_aset_ne _ _ _ _ (Ne.symm (hk a (List.mem_cons_self _ _)))

/-- A key held by no entry reads as absent. -/
theorem alookup_eq_none {κ α : Type} [DecidableEq κ] (m : List (κ × α)) (k : κ)
    (h : ∀ p ∈ m, p.1 ≠ k) : alookup m k = none := by
  induction m with
  | nil => rfl
  | cons p rest ih =>
    rw [alookup, if_neg (h p (List.mem_cons_self _ _))]
    exact ih (fun q hq => h q (List.mem_cons_of_mem _ hq))

/-- When every trade of a list references the order, the referenced sum is
the total quantity. -/
theorem refSum_all (ts : List Trade) (oid : Nat)
    (h : ∀ t ∈ ts, t.BuyOrder = oid ∨ t.SellOrder = oid) :
    refSum ts oid = tradeQSum ts := by
  induction ts with
  | nil => rfl
  | cons t rest ih =>
    rw [refSum_cons, if_pos (h t (List.mem_cons_self _ _)), tradeQSum_cons,
      ih (fun u hu => h u (List.mem_cons_of_mem _ hu))]

/-- With unique IDs, an ID determines the order. -/
theorem mem_id_unique (l : List Order) (hnd : (l.map Order.ID).Nodup)
    (a b : Order) (ha : a ∈ l) (hb : b ∈ l) (h : a.ID = b.ID) : a = b :=
  List.inj_on_of_nodup_map hnd ha hb h

/-- Well-formedness of a reachable engine state: every issued order ID is
below the fresh-ID counter and unique, and every ledger reference and
trade-index key is an issued ID. -/
def WFC (s : State) : Prop :=
  (∀ o ∈ s.orders, o.ID < s.nextOrderId) ∧
  (s.orders.map Order.ID).Nodup ∧
  (∀ t ∈ s.ledger, t.BuyOrder < s.nextOrderId ∧ t.SellOrder < s.nextOrderId) ∧
  (∀ p ∈ s.trades, p.1 < s.nextOrderId)

/-- Every committed operation preserves well-formedness. -/
theorem stepOp_WF (s : State) (op : Op) (h : WFC s) : WFC (stepOp s op) := by
  obtain ⟨h1, h2, h3, h4⟩ := h
  cases op with
  | submit inp =>
    simp only [stepOp]
    have hids := submit_orders_ids s inp
    have hnext : (SubmitOrder s inp).1.nextOrderId = s.nextOrderId + 1 := rfl
    refine ⟨?_, ?_, ?_, ?_⟩
    · intro o ho
      have : o.ID ∈ (SubmitOrder s inp).1.orders.map Order.ID := List.mem_map_of_mem _ ho
      rw [hids] at this
      rw [hnext]
      rcases List.mem_append.mp this with hm | hm
      · rcases List.mem_map.mp hm with ⟨o', ho', he⟩
        have := h1 o' ho'
        omega
      · rw [List.mem_singleton.mp hm]
        omega
    · show ((SubmitOrder s inp).1.orders.map Order.ID).Nodup
      rw [hids]
      refine List.Nodup.append h2 (List.nodup_singleton _) ?_
      intro a ha hb
      rw [List.mem_singleton.mp hb] at ha
      rcases List.mem_map.mp ha with ⟨o', ho', he⟩
      have := h1 o' ho'
      omega
    · intro t ht
      have hled : (SubmitOrder s inp).1.ledger =
          s.ledger ++ (coreScan (mkAgg s inp) s.now (s.orders ++ [mkAgg s inp])
            (mkAgg s inp).Remaining s.nextTradeId).executed := rfl
      rw [hled] at ht
      rw [hnext]
      rcases List.mem_append.mp ht with hm | hm
      · have := h3 t hm
        omega
      · have hagg : (mkAgg s inp).ID = s.nextOrderId := rfl
        have hidmem : ∀ k, k ∈ (s.orders ++ [mkAgg s inp]).map Order.ID →
            k < s.nextOrderId + 1 := by
          intro k hk
          rw [List.map_append] at hk
          rcases List.mem_append.mp hk with hk' | hk'
          · rcases List.mem_map.mp hk' with ⟨o', ho', he⟩
            have := h1 o' ho'
            omega
          · rcases List.mem_singleton.mp (by simpa [mkAgg] using hk') with rfl
            omega
        rcases (coreScan_trades (mkAgg s inp) s.now (s.orders ++ [mkAgg s inp])
            (mkAgg s inp).Remaining s.nextTradeId).2 t hm with ⟨hb, _, hmem⟩ | ⟨hb, _, hmem⟩
        · constructor
          · rw [hb, hagg]; omega
          · exact hidmem _ hmem
        · constructor
          · exact hidmem _ hmem
          · rw [hb, hagg]; omega
    · intro p hp
      have htr : (SubmitOrder s inp).1.trades =
          aset ((coreScan (mkAgg s inp) s.now (s.orders ++ [mkAgg s inp])
              (mkAgg s inp).Remaining s.nextTradeId).tmapAdds.foldl
            (fun m q => aset m q.1 ((alookup m q.1).getD [] ++ [q.2])) s.trades)
            s.nextOrderId
            ((alookup ((coreScan (mkAgg s inp) s.now (s.orders ++ [mkAgg s inp])
              (mkAgg s inp).Remaining s.nextTradeId).tmapAdds.foldl
            (fun m q => aset m q.1 ((alookup m q.1).getD [] ++ [q.2])) s.trades)
              s.nextOrderId).getD [] ++
              (coreScan (mkAgg s inp) s.now (s.orders ++ [mkAgg s inp])
                (mkAgg s inp).Remaining s.nextTradeId).executed) := rfl
      rw [htr] at hp
      rw [hnext]
      rcases aset_keys _ _ _ p hp with hk | hk
      · omega
      · rcases List.mem_map.mp hk with ⟨q, hq, hq1⟩
        rcases foldl_aset_keys _ _ q hq with hk' | hk'
        · rcases List.mem_map.mp hk' with ⟨r, hr, hr1⟩
          have := h4 r hr
          rw [← hq1, ← hr1]
          omega
        · rcases List.mem_map.mp hk' with ⟨r, hr, hr1⟩
          have hmem := (coreScan_tmapKeys (mkAgg s inp) s.now (s.orders ++ [mkAgg s inp])
            (mkAgg s inp).Remaining s.nextTradeId r hr).1
          rw [List.map_append] at hmem
          rw [← hq1, ← hr1]
          rcases List.mem_append.mp hmem with hm | hm
          · rcases List.mem_map.mp hm with ⟨o', ho', he⟩
            have := h1 o' ho'
            omega
          · rcases List.mem_singleton.mp (by simpa [mkAgg] using hm) with h
            omega
  | modify oid cid p q =>
    simp only [stepOp, ModifyOrder]
    cases hf : s.orders.find? (fun o => o.ID = oid) with
    | none => exact ⟨h1, h2, h3, h4⟩
    | some o =>
      dsimp only
      by_cases hcl : o.ClientID ≠ cid
      · rw [if_pos hcl]; exact ⟨h1, h2, h3, h4⟩
      · rw [if_neg hcl]
        by_cases hst : o.Status ≠ OrderStatus.Open
        · rw [if_pos hst]; exact ⟨h1, h2, h3, h4⟩
        · rw [if_neg hst]
          have hidseq := map_ids_of_preserve s.orders
            (fun od => if od.ID = oid then
              { od with Price := p, Quantity := q, Remaining := q } else od)
            (fun od => by by_cases h : od.ID = oid <;> simp [h])
          refine ⟨?_, ?_, h3, h4⟩
          · intro o' ho'
            have hmem : o'.ID ∈ (s.orders.map (fun od => if od.ID = oid then
                { od with Price := p, Quantity := q, Remaining := q } else od)).map
                Order.ID := List.mem_map_of_mem _ ho'
            rw [hidseq] at hmem
            rcases List.mem_map.mp hmem with ⟨o'', ho'', he⟩
            rw [← he]
            exact h1 o'' ho''
          · show ((s.orders.map fun od => if od.ID = oid then
              { od with Price := p, Quantity := q, Remaining := q } else od).map
              Order.ID).Nodup
            rw [hidseq]
            exact h2
  | cancel oid cid =>
    simp only [stepOp, CancelOrder]
    cases hf : s.orders.find? (fun o => o.ID = oid) with
    | none => exact ⟨h1, h2, h3, h4⟩
    | some o =>
      dsimp only
      by_cases hcl : o.ClientID ≠ cid
      · rw [if_pos hcl]; exact ⟨h1, h2, h3, h4⟩
      · rw [if_neg hcl]
        by_cases hst : o.Status ≠ OrderStatus.Open
        · rw [if_pos hst]; exact ⟨h1, h2, h3, h4⟩
        · rw [if_neg hst]
          have hidseq := map_ids_of_preserve s.orders
            (fun od => if od.ID = oid then
              { od with Status := OrderStatus.Cancelled, Remaining := 0 } else od)
            (fun od => by by_cases h : od.ID = oid <;> simp [h])
          refine ⟨?_, ?_, h3, h4⟩
          · intro o' ho'
            have hmem : o'.ID ∈ (s.orders.map (fun od => if od.ID = oid then
                { od with Status := OrderStatus.Cancelled, Remaining := 0 } else od)).map
                Order.ID := List.mem_map_of_mem _ ho'
            rw [hidseq] at hmem
            rcases List.mem_map.mp hmem with ⟨o'', ho'', he⟩
            rw [← he]
            exact h1 o'' ho''
          · show ((s.orders.map fun od => if od.ID = oid then
              { od with Status := OrderStatus.Cancelled, Remaining := 0 } else od).map
              Order.ID).Nodup
            rw [hidseq]
            exact h2

/-- The initial engine state is well-formed. -/
theorem initState_WF : WFC initState := by
  refine ⟨?_, ?_, ?_, ?_⟩ <;> simp [initState, WFC]

/-- Well-formedness holds in every reachable state. -/
theorem runCore_WF (ops : List Op) : WFC (runCore ops) := by
  have main : ∀ (l : List Op) (s : State), WFC s → WFC (l.foldl stepOp s) := by
    intro l
    induction l with
    | nil => exact fun s h => h
    | cons op rest ih => exact fun s h => ih _ (stepOp_WF s op h)
  exact main ops initState initState_WF

/-- Quantity conservation for one order ID: every stored order with this
ID satisfies `Quantity = Remaining + Σ(ledger trades referencing it)`. -/
def consAt (s : State) (oid : Nat) : Prop :=
  ∀ o ∈ s.orders, o.ID = oid → o.Quantity = o.Remaining + refSum s.ledger oid

/-- Whether an operation is a Modify or Cancel naming the given order. -/
def opTargets : Op → Nat → Prop
  | Op.submit _, _ => False
  | Op.modify k _ _ _, oid => k = oid
  | Op.cancel k _, oid => k = oid

/-- A committed operation that is not a Modify or Cancel of the order
preserves its quantity conservation. -/
theorem stepOp_consAt (s : State) (op : Op) (oid : Nat) (hWF : WFC s)
    (hop : ¬ opTargets op oid) (h : consAt s oid) : consAt (stepOp s op) oid := by
  obtain ⟨h1, h2, h3, h4⟩ := hWF
  cases op with
  | submit inp =>
    have hnd1 : ((s.orders ++ [mkAgg s inp]).map Order.ID).Nodup := by
      rw [List.map_append]
      refine List.Nodup.append h2 (by simp [mkAgg]) ?_
      intro a ha hb
      rcases List.mem_singleton.mp (by simpa [mkAgg] using hb) with rfl
      rcases List.mem_map.mp ha with ⟨o', ho', he⟩
      have := h1 o' ho'
      omega
    have hrem := (coreScan_trades (mkAgg s inp) s.now (s.orders ++ [mkAgg s inp])
      (mkAgg s inp).Remaining s.nextTradeId).1
    have hrefs := (coreScan_trades (mkAgg s inp) s.now (s.orders ++ [mkAgg s inp])
      (mkAgg s inp).Remaining s.nextTradeId).2
    simp only [consAt, stepOp, SubmitOrder]
    intro o'' ho'' hid
    rcases List.mem_map.mp ho'' with ⟨o', ho', himg⟩
    obtain ⟨o, hoIn, hid1, hq, hunt, hdrop⟩ := coreScan_conserve (mkAgg s inp) s.now
      (s.orders ++ [mkAgg s inp]) (mkAgg s inp).Remaining s.nextTradeId hnd1 o' ho'
    rw [refSum_append]
    by_cases hagg : o.ID = (mkAgg s inp).ID
    · have ho_eq : o = mkAgg s inp := by
        rcases List.mem_append.mp hoIn with hm | hm
        · have := h1 o hm
          have hlt : o.ID = s.nextOrderId := hagg
          omega
        · exact List.mem_singleton.mp hm
      have ho'_eq : o' = mkAgg s inp := (hunt hagg).trans ho_eq
      have hcond : o'.ID = s.nextOrderId := by rw [ho'_eq]; rfl
      rw [if_pos hcond] at himg
      have hqty : o''.Quantity = inp.Quantity := by rw [← himg, ho'_eq]; rfl
      have hrm : o''.Remaining = (coreScan (mkAgg s inp) s.now (s.orders ++ [mkAgg s inp])
          (mkAgg s inp).Remaining s.nextTradeId).rem := by rw [← himg]
      have hoid : oid = s.nextOrderId := by
        rw [← hid, ← himg]
        simp [ho'_eq, mkAgg]
      have hl0 : refSum s.ledger oid = 0 := by
        apply refSum_eq_zero
        intro t ht
        have := h3 t ht
        omega
      have hEagg : refSum (coreScan (mkAgg s inp) s.now (s.orders ++ [mkAgg s inp])
          (mkAgg s inp).Remaining s.nextTradeId).executed oid = tradeQSum
          (coreScan (mkAgg s inp) s.now (s.orders ++ [mkAgg s inp])
            (mkAgg s inp).Remaining s.nextTradeId).executed := by
        apply refSum_all
        intro t ht
        rcases hrefs t ht with ⟨hb, -, -⟩ | ⟨hb, -, -⟩
        · exact Or.inl (by rw [hb, hoid]; rfl)
        · exact Or.inr (by rw [hb, hoid]; rfl)
      have hrin : (mkAgg s inp).Remaining = inp.Quantity := rfl
      rw [hqty, hrm, hl0, hEagg, hrem, hrin]
      ring
    · have hcond : ¬ o'.ID = s.nextOrderId := by
        rw [hid1]
        exact hagg
      rw [if_neg hcond] at himg
      have hoIn' : o ∈ s.orders := by
        rcases List.mem_append.mp hoIn with hm | hm
        · exact hm
        · exact absurd (congrArg Order.ID (List.mem_singleton.mp hm)) hagg
      have hoid : o.ID = oid := by rw [← hid, ← himg, hid1]
      have hcons := h o hoIn' hoid
      have hdrop' := hdrop hagg
      have hq' : o''.Quantity = o.Quantity := by rw [← himg]; exact hq
      have hr' : o''.Remaining = o.Remaining - refSum (coreScan (mkAgg s inp) s.now
          (s.orders ++ [mkAgg s inp]) (mkAgg s inp).Remaining s.nextTradeId).executed
          o.ID := by rw [← himg]; exact hdrop'
      rw [hq', hr', ← hoid, hcons, hoid]
      ring
  | modify k cid p q =>
    simp only [consAt, stepOp, ModifyOrder]
    cases hf : s.orders.find? (fun o => o.ID = k) with
    | none => exact h
    | some o =>
      dsimp only
      by_cases hcl : o.ClientID ≠ cid
      · rw [if_pos hcl]; exact h
      · rw [if_neg hcl]
        by_cases hst : o.Status ≠ OrderStatus.Open
        · rw [if_pos hst]; exact h
        · rw [if_neg hst]
          intro o'' ho'' hid
          rcases List.mem_map.mp ho'' with ⟨o', ho', himg⟩
          by_cases hk : o'.ID = k
          · exfalso
            apply hop
            have : o''.ID = o'.ID := by rw [← himg, if_pos hk]
            show k = oid
            rw [← hk, ← this, hid]
          · rw [if_neg hk] at himg
            rw [← himg] at hid ⊢
            exact h o' ho' hid
  | cancel k cid =>
    simp only [consAt, stepOp, CancelOrder]
    cases hf : s.orders.find? (fun o => o.ID = k) with
    | none => exact h
    | some o =>
      dsimp only
      by_cases hcl : o.ClientID ≠ cid
      · rw [if_pos hcl]; exact h
      · rw [if_neg hcl]
        by_cases hst : o.Status ≠ OrderStatus.Open
        · rw [if_pos hst]; exact h
        · rw [if_neg hst]
          intro o'' ho'' hid
          rcases List.mem_map.mp ho'' with ⟨o', ho', himg⟩
          by_cases hk : o'.ID = k
          · exfalso
            apply hop
            have : o''.ID = o'.ID := by rw [← himg, if_pos hk]
            show k = oid
            rw [← hk, ← this, hid]
          · rw [if_neg hk] at himg
            rw [← himg] at hid ⊢
            exact h o' ho' hid

/-- Conservation for an untargeted ID survives a whole run. -/
theorem foldl_consAt (ops : List Op) : ∀ (s : State) (oid : Nat), WFC s → consAt s oid →
    (∀ op ∈ ops, ¬ opTargets op oid) → consAt (ops.foldl stepOp s) oid := by
  induction ops with
  | nil => exact fun s oid _ h _ => h
  | cons op rest ih =>
    intro s oid hWF h hops
    rw [List.foldl_cons]
    exact ih _ oid (stepOp_WF s op hWF)
      (stepOp_consAt s op oid hWF (hops op (List.mem_cons_self _ _)) h)
      (fun op' hop' => hops op' (List.mem_cons_of_mem _ hop'))

/-- C1, amended: after any committed sequence of Submit, Modify and Cancel
operations, every order that is never the target of a Modify or Cancel in
the sequence satisfies `Quantity = Remaining + Σ(Trade.Quantity over the
trades that reference it as BuyOrderID or SellOrderID)`.  (A successful
Cancel zeroes Remaining and a successful Modify resets it, so targeted
orders violate the equation; see the counterexample.) -/
theorem quantity_conservation_amended (ops : List Op) :
    ∀ o ∈ (runCore ops).orders,
      (∀ op ∈ ops, ¬ opTargets op o.ID) →
      o.Quantity = o.Remaining + refSum (runCore ops).ledger o.ID := by
  intro o ho huntouched
  have hinit : consAt initState o.ID := by
    intro o' ho' _
    simp [initState] at ho'
  exact foldl_consAt ops initState o.ID initState_WF hinit huntouched o ho rfl

/-- C1, witness: after SELL LIMIT 100×10 then BUY LIMIT 100×4 (no Modify
or Cancel), the partially filled sell order (ID 0) satisfies
`10 = 6 + refSum(ledger, 0)`. -/
theorem quantity_conservation_witness :
    ({ ID := 0, ClientID := "c", ClientOrderID := "k1", Symbol := "X",
       Side := Side.Sell, Typ := OrderType.Limit, Price := 100, Quantity := 10,
       Remaining := 6, Status := OrderStatus.Open, CreatedAt := 0 } : Order).Quantity =
      ({ ID := 0, ClientID := "c", ClientOrderID := "k1", Symbol := "X",
         Side := Side.Sell, Typ := OrderType.Limit, Price := 100, Quantity := 10,
         Remaining := 6, Status := OrderStatus.Open, CreatedAt := 0 } : Order).Remaining +
        refSum (runCore [Op.submit (mkInp "c" "k1" "X" Side.Sell OrderType.Limit 100 10),
                         Op.submit (mkInp "d" "k2" "X" Side.Buy OrderType.Limit 100 4)]).ledger
          ({ ID := 0, ClientID := "c", ClientOrderID := "k1", Symbol := "X",
             Side := Side.Sell, Typ := OrderType.Limit, Price := 100, Quantity := 10,
             Remaining := 6, Status := OrderStatus.Open, CreatedAt := 0 } : Order).ID :=
  quantity_conservation_amended
    [Op.submit (mkInp "c" "k1" "X" Side.Sell OrderType.Limit 100 10),
     Op.submit (mkInp "d" "k2" "X" Side.Buy OrderType.Limit 100 4)]
    { ID := 0, ClientID := "c", ClientOrderID := "k1", Symbol := "X",
      Side := Side.Sell, Typ := OrderType.Limit, Price := 100, Quantity := 10,
      Remaining := 6, Status := OrderStatus.Open, CreatedAt := 0 }
    (by decide) (by intro op hop; fin_cases hop <;> exact fun h => h)

/-- Per-order status/remaining invariant that the core engine maintains:
remaining lies in `[0, Quantity]`, OPEN orders have positive remaining,
FILLED and CANCELLED orders have zero remaining. -/
def statusInv (o : Order) : Prop :=
  0 ≤ o.Remaining ∧ o.Remaining ≤ o.Quantity ∧
  (o.Status = OrderStatus.Open → 0 < o.Remaining) ∧
  (o.Status = OrderStatus.Filled → o.Remaining = 0) ∧
  (o.Status = OrderStatus.Cancelled → o.Remaining = 0)

/-- The operation carries a positive quantity (spec §4.3 precondition
`Quantity > 0`, which the code does not itself enforce). -/
def posOp : Op → Prop
  | Op.submit inp => 0 < inp.Quantity
  | Op.modify _ _ _ q => 0 < q
  | Op.cancel _ _ => True

/-- A committed positive-quantity operation preserves the status/remaining
invariant of every stored order. -/
theorem stepOp_statusInv (s : State) (op : Op) (hWF : WFC s) (hpos : posOp op)
    (h : ∀ o ∈ s.orders, statusInv o) : ∀ o ∈ (stepOp s op).orders, statusInv o := by
  obtain ⟨h1, h2, h3, h4⟩ := hWF
  cases op with
  | submit inp =>
    have hposq : 0 < inp.Quantity := hpos
    have hnd1 : ((s.orders ++ [mkAgg s inp]).map Order.ID).Nodup := by
      rw [List.map_append]
      refine List.Nodup.append h2 (by simp [mkAgg]) ?_
      intro a ha hb
      rcases List.mem_singleton.mp (by simpa [mkAgg] using hb) with rfl
      rcases List.mem_map.mp ha with ⟨o', ho', he⟩
      have := h1 o' ho'
      omega
    have hall1 : ∀ o ∈ s.orders ++ [mkAgg s inp], statusInv o := by
      intro o ho
      rcases List.mem_append.mp ho with hm | hm
      · exact h o hm
      · rw [List.mem_singleton.mp hm]
        exact ⟨by simp [mkAgg]; omega, by simp [mkAgg],
          fun _ => by simp [mkAgg]; omega,
          fun hx => absurd hx (by simp [mkAgg]),
          fun hx => absurd hx (by simp [mkAgg])⟩
    have hPstep : ∀ (o : Order) (q : ℤ), statusInv o → o.Status = OrderStatus.Open →
        0 < q → q ≤ o.Remaining →
        statusInv { o with
          Remaining := o.Remaining - q,
          Status := if o.Remaining - q ≤ 0 then OrderStatus.Filled else o.Status } := by
      intro o q hi hopn hq hle
      obtain ⟨i1, i2, i3, i4, i5⟩ := hi
      by_cases hz : o.Remaining - q ≤ 0
      · exact ⟨by simp; omega, by simp; omega,
          by simp [hz], by simp [hz]; omega, by simp [hz]⟩
      · exact ⟨by simp; omega, by simp; omega,
          by simp [hz]; omega, by simp [hz, hopn], by simp [hz, hopn]⟩
    have hpres := coreScan_preserves (mkAgg s inp) s.now statusInv hPstep
      (s.orders ++ [mkAgg s inp]) (mkAgg s inp).Remaining s.nextTradeId hall1
    have hR := coreScan_rem (mkAgg s inp) s.now (s.orders ++ [mkAgg s inp])
      (mkAgg s inp).Remaining s.nextTradeId (by show (0:ℤ) ≤ inp.Quantity; omega)
    simp only [stepOp, SubmitOrder]
    intro o'' ho''
    rcases List.mem_map.mp ho'' with ⟨o', ho', himg⟩
    by_cases hcond : o'.ID = s.nextOrderId
    · rw [if_pos hcond] at himg
      obtain ⟨o, hoIn, hid1, hq, hunt, -⟩ := coreScan_conserve (mkAgg s inp) s.now
        (s.orders ++ [mkAgg s inp]) (mkAgg s inp).Remaining s.nextTradeId hnd1 o' ho'
      have hagg : o.ID = (mkAgg s inp).ID := by rw [← hid1, hcond]; rfl
      have ho_eq : o = mkAgg s inp := by
        rcases List.mem_append.mp hoIn with hm | hm
        · have := h1 o hm
          have hlt : o.ID = s.nextOrderId := hagg
          omega
        · exact List.mem_singleton.mp hm
      have ho'_eq : o' = mkAgg s inp := (hunt hagg).trans ho_eq
      rw [← himg, ho'_eq]
      have hmq : (mkAgg s inp).Quantity = inp.Quantity := rfl
      cases hbroke : (coreScan (mkAgg s inp) s.now (s.orders ++ [mkAgg s inp])
          (mkAgg s inp).Remaining s.nextTradeId).broke with
      | true =>
        have hz := hR.2.2.1 hbroke
        exact ⟨by simp [hbroke, hz], by simp [hbroke, hz, hmq]; omega,
          by simp [hbroke], by simp [hbroke, hz], by simp [hbroke]⟩
      | false =>
        have hgt := hR.2.2.2 hbroke (by show (0:ℤ) < inp.Quantity; omega)
        have hle : (coreScan (mkAgg s inp) s.now (s.orders ++ [mkAgg s inp])
            (mkAgg s inp).Remaining s.nextTradeId).rem ≤ inp.Quantity := hR.2.1
        exact ⟨by simp [hbroke]; omega, by simp [hbroke, hmq]; omega,
          by simp [hbroke]; omega, by simp [hbroke], by simp [hbroke]⟩
    · rw [if_neg hcond] at himg
      rw [← himg]
      exact hpres o' ho'
  | modify k cid p q =>
    have hposq : 0 < q := hpos
    simp only [stepOp, ModifyOrder]
    cases hf : s.orders.find? (fun o => o.ID = k) with
    | none => exact h
    | some o =>
      dsimp only
      by_cases hcl : o.ClientID ≠ cid
      · rw [if_pos hcl]; exact h
      · rw [if_neg hcl]
        by_cases hst : o.Status ≠ OrderStatus.Open
        · rw [if_pos hst]; exact h
        · rw [if_neg hst]
          have hoMem : o ∈ s.orders := List.mem_of_find?_eq_some hf
          have hoId : o.ID = k := by simpa using List.find?_some hf
          have hoOpen : o.Status = OrderStatus.Open := not_not.mp hst
          intro o'' ho''
          rcases List.mem_map.mp ho'' with ⟨o', ho', himg⟩
          by_cases hk : o'.ID = k
          · have ho'_eq : o' = o := mem_id_unique s.orders h2 o' o ho' hoMem
              (by rw [hk, hoId])
            rw [if_pos hk] at himg
            rw [← himg, ho'_eq]
            exact ⟨by simp; omega, by simp,
              fun _ => by simp; omega,
              fun hx => absurd (by simpa using hx) (by rw [hoOpen]; decide),
              fun hx => absurd (by simpa using hx) (by rw [hoOpen]; decide)⟩
          · rw [if_neg hk] at himg
            rw [← himg]
            exact h o' ho'
  | cancel k cid =>
    simp only [stepOp, CancelOrder]
    cases hf : s.orders.find? (fun o => o.ID = k) with
    | none => exact h
    | some o =>
      dsimp only
      by_cases hcl : o.ClientID ≠ cid
      · rw [if_pos hcl]; exact h
      · rw [if_neg hcl]
        by_cases hst : o.Status ≠ OrderStatus.Open
        · rw [if_pos hst]; exact h
        · rw [if_neg hst]
          intro o'' ho''
          rcases List.mem_map.mp ho'' with ⟨o', ho', himg⟩
          by_cases hk : o'.ID = k
          · rw [if_pos hk] at himg
            obtain ⟨i1, i2, i3, i4, i5⟩ := h o' ho'
            rw [← himg]
            exact ⟨by simp, by simp; omega, by simp, by simp, fun _ => by simp⟩
          · rw [if_neg hk] at himg
            rw [← himg]
            exact h o' ho'

/-- The status/remaining invariant survives a whole positive-quantity
run. -/
theorem foldl_statusInv (ops : List Op) : ∀ (s : State), WFC s →
    (∀ op ∈ ops, posOp op) → (∀ o ∈ s.orders, statusInv o) →
    ∀ o ∈ (ops.foldl stepOp s).orders, statusInv o := by
  induction ops with
  | nil => exact fun s _ _ h => h
  | cons op rest ih =>
    intro s hWF hpos h
    rw [List.foldl_cons]
    exact ih _ (stepOp_WF s op hWF) (fun op' hop' => hpos op' (List.mem_cons_of_mem _ hop'))
      (stepOp_statusInv s op hWF (hpos op (List.mem_cons_self _ _)) h)

/-- C4, amended: the engine never assigns PARTIALLY_FILLED, and an OPEN
order may be partially filled.  What holds after any committed sequence of
positive-quantity operations is: `Status = FILLED ⇒ Remaining = 0`,
`Status = CANCELLED ⇒ Remaining = 0`, and `Status = OPEN ⇒ 0 < Remaining ≤
Quantity` (not `Remaining = Quantity`; see the counterexample). -/
theorem status_remaining_amended (ops : List Op) (hpos : ∀ op ∈ ops, posOp op) :
    ∀ o ∈ (runCore ops).orders,
      (o.Status = OrderStatus.Filled → o.Remaining = 0) ∧
      (o.Status = OrderStatus.Cancelled → o.Remaining = 0) ∧
      (o.Status = OrderStatus.Open → 0 < o.Remaining ∧ o.Remaining ≤ o.Quantity) := by
  intro o ho
  have hinv := foldl_statusInv ops initState initState_WF hpos
    (by intro o' ho'; simp [initState] at ho') o ho
  obtain ⟨i1, i2, i3, i4, i5⟩ := hinv
  exact ⟨i4, i5, fun hx => ⟨i3 hx, i2⟩⟩

/-- C4, witness: after SELL LIMIT 100×10 then BUY LIMIT 100×4, the
partially filled sell order (OPEN, Remaining 6 ≤ Quantity 10) and the
claim's implications hold for it. -/
theorem status_remaining_witness :
    (({ ID := 0, ClientID := "c", ClientOrderID := "k1", Symbol := "X",
        Side := Side.Sell, Typ := OrderType.Limit, Price := 100, Quantity := 10,
        Remaining := 6, Status := OrderStatus.Open, CreatedAt := 0 } : Order).Status =
        OrderStatus.Filled →
      ({ ID := 0, ClientID := "c", ClientOrderID := "k1", Symbol := "X",
         Side := Side.Sell, Typ := OrderType.Limit, Price := 100, Quantity := 10,
         Remaining := 6, Status := OrderStatus.Open, CreatedAt := 0 } : Order).Remaining
        = 0) ∧
    (({ ID := 0, ClientID := "c", ClientOrderID := "k1", Symbol := "X",
        Side := Side.Sell, Typ := OrderType.Limit, Price := 100, Quantity := 10,
        Remaining := 6, Status := OrderStatus.Open, CreatedAt := 0 } : Order).Status =
        OrderStatus.Cancelled →
      ({ ID := 0, ClientID := "c", ClientOrderID := "k1", Symbol := "X",
         Side := Side.Sell, Typ := OrderType.Limit, Price := 100, Quantity := 10,
         Remaining := 6, Status := OrderStatus.Open, CreatedAt := 0 } : Order).Remaining
        = 0) ∧
    (({ ID := 0, ClientID := "c", ClientOrderID := "k1", Symbol := "X",
        Side := Side.Sell, Typ := OrderType.Limit, Price := 100, Quantity := 10,
        Remaining := 6, Status := OrderStatus.Open, CreatedAt := 0 } : Order).Status =
        OrderStatus.Open →
      0 < ({ ID := 0, ClientID := "c", ClientOrderID := "k1", Symbol := "X",
             Side := Side.Sell, Typ := OrderType.Limit, Price := 100, Quantity := 10,
             Remaining := 6, Status := OrderStatus.Open, CreatedAt := 0 } : Order).Remaining ∧
      ({ ID := 0, ClientID := "c", ClientOrderID := "k1", Symbol := "X",
         Side := Side.Sell, Typ := OrderType.Limit, Price := 100, Quantity := 10,
         Remaining := 6, Status := OrderStatus.Open, CreatedAt := 0 } : Order).Remaining ≤
      ({ ID := 0, ClientID := "c", ClientOrderID := "k1", Symbol := "X",
         Side := Side.Sell, Typ := OrderType.Limit, Price := 100, Quantity := 10,
         Remaining := 6, Status := OrderStatus.Open, CreatedAt := 0 } : Order).Quantity) :=
  status_remaining_amended
    [Op.submit (mkInp "c" "k1" "X" Side.Sell OrderType.Limit 100 10),
     Op.submit (mkInp "d" "k2" "X" Side.Buy OrderType.Limit 100 4)]
    (by
      intro op hop
      fin_cases hop
      · exact (by decide : (0:ℤ) < 10)
      · exact (by decide : (0:ℤ) < 4))
    { ID := 0, ClientID := "c", ClientOrderID := "k1", Symbol := "X",
      Side := Side.Sell, Typ := OrderType.Limit, Price := 100, Quantity := 10,
      Remaining := 6, Status := OrderStatus.Open, CreatedAt := 0 }
    (by decide)

/-- Bid side of the bulk-load fold of `LoadOpenOrdersFromRepo`. -/
theorem loadFold_bids : ∀ (os : List Order) (b : OrderbookSnapshot),
    (os.foldl (fun b o => if o.Side = Side.Buy then { b with Bids := b.Bids ++ [o] }
      else { b with Asks := b.Asks ++ [o] }) b).Bids
      = b.Bids ++ os.filter (fun o => decide (o.Side = Side.Buy)) := by
  intro os
  induction os with
  | nil => intro b; simp
  | cons o rest ih =>
    intro b
    rw [List.foldl_cons]
    by_cases hs : o.Side = Side.Buy
    · rw [if_pos hs, ih]
      simp [hs]
    · rw [if_neg hs, ih]
      simp [hs]

/-- Ask side of the bulk-load fold of `LoadOpenOrdersFromRepo`. -/
theorem loadFold_asks : ∀ (os : List Order) (b : OrderbookSnapshot),
    (os.foldl (fun b o => if o.Side = Side.Buy then { b with Bids := b.Bids ++ [o] }
      else { b with Asks := b.Asks ++ [o] }) b).Asks
      = b.Asks ++ os.filter (fun o => !decide (o.Side = Side.Buy)) := by
  intro os
  induction os with
  | nil => intro b; simp
  | cons o rest ih =>
    intro b
    rw [List.foldl_cons]
    by_cases hs : o.Side = Side.Buy
    · rw [if_pos hs, ih]
      simp [hs]
    · rw [if_neg hs, ih]
      simp [hs]

/-- A side value that is not BUY is SELL. -/
theorem side_not_buy (sd : Side) : (¬ sd = Side.Buy) ↔ sd = Side.Sell := by
  cases sd <;> simp

/-- C7, amended: rebuilding a symbol's book via `LoadOpenOrders` inserts
exactly the persisted orders of the symbol with `Status = OPEN` and
`Remaining > 0` (the status PARTIALLY_FILLED does not occur in this
engine), split by side.  The rebuilt book reflects the authoritative
orders, which can differ from the pre-shutdown in-memory book, because
that book holds stale value copies (see the counterexample). -/
theorem recovery_amended (repoOrders : List Order) (sym : String) (o : Order) :
    (o ∈ (getOrCreateOrderbook (LoadOpenOrdersFromRepo repoOrders [sym]).orderbook sym).Bids
      ↔ o ∈ repoOrders ∧ o.Symbol = sym ∧ o.Status = OrderStatus.Open ∧
        0 < o.Remaining ∧ o.Side = Side.Buy) ∧
    (o ∈ (getOrCreateOrderbook (LoadOpenOrdersFromRepo repoOrders [sym]).orderbook sym).Asks
      ↔ o ∈ repoOrders ∧ o.Symbol = sym ∧ o.Status = OrderStatus.Open ∧
        0 < o.Remaining ∧ o.Side = Side.Sell) := by
  have hbook : getOrCreateOrderbook (LoadOpenOrdersFromRepo repoOrders [sym]).orderbook sym
      = sortOrders ((LoadOpenOrders repoOrders sym).foldl
          (fun b o => if o.Side = Side.Buy then { b with Bids := b.Bids ++ [o] }
            else { b with Asks := b.Asks ++ [o] }) emptyBook) := by
    simp [LoadOpenOrdersFromRepo, initState, getOrCreateOrderbook, aset, alookup]
  rw [hbook]
  constructor
  · rw [show (sortOrders ((LoadOpenOrders repoOrders sym).foldl
        (fun b o => if o.Side = Side.Buy then { b with Bids := b.Bids ++ [o] }
          else { b with Asks := b.Asks ++ [o] }) emptyBook)).Bids
      = stableSort bidLess (((LoadOpenOrders repoOrders sym).foldl
        (fun b o => if o.Side = Side.Buy then { b with Bids := b.Bids ++ [o] }
          else { b with Asks := b.Asks ++ [o] }) emptyBook)).Bids from rfl]
    rw [mem_stableSort, loadFold_bids]
    simp only [emptyBook, List.nil_append]
    simp [LoadOpenOrders, List.mem_filter]
    tauto
  · rw [show (sortOrders ((LoadOpenOrders repoOrders sym).foldl
        (fun b o => if o.Side = Side.Buy then { b with Bids := b.Bids ++ [o] }
          else { b with Asks := b.Asks ++ [o] }) emptyBook)).Asks
      = stableSort askLess (((LoadOpenOrders repoOrders sym).foldl
        (fun b o => if o.Side = Side.Buy then { b with Bids := b.Bids ++ [o] }
          else { b with Asks := b.Asks ++ [o] }) emptyBook)).Asks from rfl]
    rw [mem_stableSort, loadFold_asks]
    simp only [emptyBook, List.nil_append]
    simp [LoadOpenOrders, List.mem_filter, side_not_buy]
    tauto

/-- C10: immediately after `SubmitOrder` returns the trade list for an
incoming order assigned a fresh ID, `GetTradesForOrder` on that ID (with
no intervening operations) returns exactly that list, in the same order:
the engine records the full executed list under the incoming order's
ID. -/
theorem trades_for_submitted (ops : List Op) (inp : OrderInput) :
    GetTradesForOrder (SubmitOrder (runCore ops) inp).1 (SubmitOrder (runCore ops) inp).2.2
      = (SubmitOrder (runCore ops) inp).2.1 := by
  obtain ⟨h1, h2, h3, h4⟩ := runCore_WF ops
  have hkeys : ∀ p ∈ (coreScan (mkAgg (runCore ops) inp) (runCore ops).now
      ((runCore ops).orders ++ [mkAgg (runCore ops) inp])
      (mkAgg (runCore ops) inp).Remaining (runCore ops).nextTradeId).tmapAdds,
      p.1 ≠ (runCore ops).nextOrderId :=
    fun p hp => (coreScan_tmapKeys _ _ _ _ _ p hp).2
  have hnone : alookup (runCore ops).trades (runCore ops).nextOrderId = none :=
    alookup_eq_none _ _ (fun p hp => Nat.ne_of_lt (h4 p hp))
  simp only [GetTradesForOrder, SubmitOrder]
  rw [alookup_aset_self, foldl_aset_lookup_ne _ _ hkeys, hnone]
  rfl

/-- C8, witness: starting from the engine that already holds the order of
the first submission (IDs 0), a second identical submission appends a
fresh order with ID 1. -/
theorem submit_no_dedup_witness :
    (SubmitOrder (runCore [Op.submit (mkInp "c" "k1" "X" Side.Buy OrderType.Limit 10 5)])
        (mkInp "c" "k1" "X" Side.Buy OrderType.Limit 10 5)).1.orders.map Order.ID
      = (runCore [Op.submit (mkInp "c" "k1" "X" Side.Buy OrderType.Limit 10 5)]).orders.map
          Order.ID ++
        [(runCore [Op.submit (mkInp "c" "k1" "X" Side.Buy OrderType.Limit 10 5)]).nextOrderId] ∧
    (runCore [Op.submit (mkInp "c" "k1" "X" Side.Buy OrderType.Limit 10 5)]).nextOrderId ∉
      (runCore [Op.submit (mkInp "c" "k1" "X" Side.Buy OrderType.Limit 10 5)]).orders.map
        Order.ID :=
  submit_no_dedup (runCore [Op.submit (mkInp "c" "k1" "X" Side.Buy OrderType.Limit 10 5)])
    (mkInp "c" "k1" "X" Side.Buy OrderType.Limit 10 5) (by decide)

end Core

namespace MatchEng

/-- With unique IDs, an ID determines the order. -/
theorem memM_id_unique (l : List Order) (hnd : (l.map Order.ID).Nodup)
    (a b : Order) (ha : a ∈ l) (hb : b ∈ l) (h : a.ID = b.ID) : a = b :=
  List.inj_on_of_nodup_map hnd ha hb h

/-- Price eligibility of a candidate for the aggressor of `Engine.match`:
the price filter of the candidate loop does not skip it. -/
def elig (aggSide : Side) (aggTyp : OrderType) (aggPrice : ℤ) (c : Order) : Prop :=
  aggTyp = OrderType.Market ∨ (aggSide = Side.Buy ∧ c.Price ≤ aggPrice) ∨
    (aggSide = Side.Sell ∧ aggPrice ≤ c.Price)

/-- The candidate loop never drives the aggressor's remaining negative and
never increases it. -/
theorem matchScan_remBounds (aggSide : Side) (aggTyp : OrderType) (aggPrice : ℤ)
    (aggId now : Nat) : ∀ (cs : List Order) (rem : ℤ) (tid : Nat), 0 ≤ rem →
    (∀ c ∈ cs, 0 ≤ c.Remaining) →
    0 ≤ (matchScan aggSide aggTyp aggPrice aggId now cs rem tid).rem ∧
    (matchScan aggSide aggTyp aggPrice aggId now cs rem tid).rem ≤ rem := by
  intro cs
  induction cs with
  | nil => intro rem tid h _; exact ⟨h, le_refl _⟩
  | cons c rest ih =>
    intro rem tid h hcs
    have hcrem := hcs c (List.mem_cons_self _ _)
    have hrest : ∀ c' ∈ rest, 0 ≤ c'.Remaining :=
      fun c' hc' => hcs c' (List.mem_cons_of_mem _ hc')
    by_cases h0 : rem = 0
    · simp only [matchScan, if_pos h0]
      exact ⟨h, le_refl _⟩
    · by_cases hs1 : aggTyp ≠ OrderType.Market ∧ aggSide = Side.Buy ∧ aggPrice < c.Price
      · simp only [matchScan, if_neg h0, if_pos hs1]
        exact ih rem tid h hrest
      · by_cases hs2 : aggTyp ≠ OrderType.Market ∧ aggSide = Side.Sell ∧ c.Price < aggPrice
        · simp only [matchScan, if_neg h0, if_neg hs1, if_pos hs2]
          exact ih rem tid h hrest
        · simp only [matchScan, if_neg h0, if_neg hs1, if_neg hs2]
          have hml := Core.minf_le_left rem c.Remaining
          have hq0 : 0 ≤ minf rem c.Remaining := by
            unfold minf
            split_ifs <;> omega
          have hrec := ih (rem - minf rem c.Remaining) (tid + 1) (by omega) hrest
          exact ⟨hrec.1, by have := hrec.2; omega⟩

/-- Every remaining-quantity write of the candidate loop targets a scanned
candidate and stays within `[0, candidate.Remaining]`. -/
theorem matchScan_upds (aggSide : Side) (aggTyp : OrderType) (aggPrice : ℤ)
    (aggId now : Nat) : ∀ (cs : List Order) (rem : ℤ) (tid : Nat), 0 ≤ rem →
    (∀ c ∈ cs, 0 ≤ c.Remaining) →
    ∀ p ∈ (matchScan aggSide aggTyp aggPrice aggId now cs rem tid).upds,
      ∃ c ∈ cs, p.1 = c.ID ∧ 0 ≤ p.2 ∧ p.2 ≤ c.Remaining := by
  intro cs
  induction cs with
  | nil => intro rem tid _ _ p hp; simp [matchScan] at hp
  | cons c rest ih =>
    intro rem tid h hcs p hp
    have hcrem := hcs c (List.mem_cons_self _ _)
    have hrest : ∀ c' ∈ rest, 0 ≤ c'.Remaining :=
      fun c' hc' => hcs c' (List.mem_cons_of_mem _ hc')
    by_cases h0 : rem = 0
    · simp only [matchScan, if_pos h0] at hp
      simp at hp
    · by_cases hs1 : aggTyp ≠ OrderType.Market ∧ aggSide = Side.Buy ∧ aggPrice < c.Price
      · simp only [matchScan, if_neg h0, if_pos hs1] at hp
        obtain ⟨c', hc', h1, h2, h3⟩ := ih rem tid h hrest p hp
        exact ⟨c', List.mem_cons_of_mem _ hc', h1, h2, h3⟩
      · by_cases hs2 : aggTyp ≠ OrderType.Market ∧ aggSide = Side.Sell ∧ c.Price < aggPrice
        · simp only [matchScan, if_neg h0, if_neg hs1, if_pos hs2] at hp
          obtain ⟨c', hc', h1, h2, h3⟩ := ih rem tid h hrest p hp
          exact ⟨c', List.mem_cons_of_mem _ hc', h1, h2, h3⟩
        · simp only [matchScan, if_neg h0, if_neg hs1, if_neg hs2] at hp
          have hml := Core.minf_le_left rem c.Remaining
          have hmr := Core.minf_le_right rem c.Remaining
          have hq0 : 0 ≤ minf rem c.Remaining := by
            unfold minf
            split_ifs <;> omega
          rcases List.mem_cons.mp hp with rfl | hp'
          · exact ⟨c, List.mem_cons_self _ _, rfl, by dsimp only; omega,
              by dsimp only; omega⟩
          · obtain ⟨c', hc', h1, h2, h3⟩ :=
              ih (rem - minf rem c.Remaining) (tid + 1) (by omega) hrest p hp'
            exact ⟨c', List.mem_cons_of_mem _ hc', h1, h2, h3⟩

/-- The keys written by the candidate loop are distinct candidate IDs. -/
theorem matchScan_keys (aggSide : Side) (aggTyp : OrderType) (aggPrice : ℤ)
    (aggId now : Nat) : ∀ (cs : List Order) (rem : ℤ) (tid : Nat),
    (cs.map Order.ID).Nodup →
    ((matchScan aggSide aggTyp aggPrice aggId now cs rem tid).upds.map Prod.fst).Nodup ∧
    ∀ p ∈ (matchScan aggSide aggTyp aggPrice aggId now cs rem tid).upds,
      p.1 ∈ cs.map Order.ID := by
  intro cs
  induction cs with
  | nil => intro rem tid _; exact ⟨List.nodup_nil, by simp [matchScan]⟩
  | cons c rest ih =>
    intro rem tid hnd
    rw [List.map_cons, List.nodup_cons] at hnd
    obtain ⟨hno, hnd'⟩ := hnd
    by_cases h0 : rem = 0
    · simp only [matchScan, if_pos h0]
      exact ⟨List.nodup_nil, by simp⟩
    · by_cases hs1 : aggTyp ≠ OrderType.Market ∧ aggSide = Side.Buy ∧ aggPrice < c.Price
      · simp only [matchScan, if_neg h0, if_pos hs1]
        obtain ⟨ha, hb⟩ := ih rem tid hnd'
        exact ⟨ha, fun p hp => List.mem_cons_of_mem _ (hb p hp)⟩
      · by_cases hs2 : aggTyp ≠ OrderType.Market ∧ aggSide = Side.Sell ∧ c.Price < aggPrice
        · simp only [matchScan, if_neg h0, if_neg hs1, if_pos hs2]
          obtain ⟨ha, hb⟩ := ih rem tid hnd'
          exact ⟨ha, fun p hp => List.mem_cons_of_mem _ (hb p hp)⟩
        · simp only [matchScan, if_neg h0, if_neg hs1, if_neg hs2]
          obtain ⟨ha, hb⟩ := ih (rem - minf rem c.Remaining) (tid + 1) hnd'
          refine ⟨?_, ?_⟩
          · rw [List.map_cons, List.nodup_cons]
            refine ⟨fun hmem => ?_, ha⟩
            rcases List.mem_map.mp hmem with ⟨p, hp, hpe⟩
            have hpe' : p.1 = c.ID := hpe
            exact hno (hpe' ▸ hb p hp)
          · intro p hp
            rcases List.mem_cons.mp hp with rfl | hp'
            · exact List.mem_cons_self _ _
            · exact List.mem_cons_of_mem _ (hb p hp')

/-- When the aggressor's remaining stays positive, the candidate loop has
zeroed every price-eligible candidate. -/
theorem matchScan_elig_zero (aggSide : Side) (aggTyp : OrderType) (aggPrice : ℤ)
    (aggId now : Nat) : ∀ (cs : List Order) (rem : ℤ) (tid : Nat), 0 ≤ rem →
    (∀ c ∈ cs, 0 ≤ c.Remaining) →
    0 < (matchScan aggSide aggTyp aggPrice aggId now cs rem tid).rem →
    ∀ c ∈ cs, elig aggSide aggTyp aggPrice c →
      (c.ID, (0:ℤ)) ∈ (matchScan aggSide aggTyp aggPrice aggId now cs rem tid).upds := by
  intro cs
  induction cs with
  | nil => intro rem tid _ _ _ c hc; simp at hc
  | cons c0 rest ih =>
    intro rem tid h hcs hpos c hc helig
    have hrest : ∀ c' ∈ rest, 0 ≤ c'.Remaining :=
      fun c' hc' => hcs c' (List.mem_cons_of_mem _ hc')
    by_cases h0 : rem = 0
    · simp only [matchScan, if_pos h0] at hpos
      omega
    · by_cases hs1 : aggTyp ≠ OrderType.Market ∧ aggSide = Side.Buy ∧ aggPrice < c0.Price
      · simp only [matchScan, if_neg h0, if_pos hs1] at hpos ⊢
        rcases List.mem_cons.mp hc with rfl | hc'
        · exfalso
          rcases helig with hm | ⟨-, hp⟩ | ⟨hsd, -⟩
          · exact hs1.1 hm
          · omega
          · rw [hs1.2.1] at hsd
            exact (by decide : Side.Buy ≠ Side.Sell) hsd
        · exact ih rem tid h hrest hpos c hc' helig
      · by_cases hs2 : aggTyp ≠ OrderType.Market ∧ aggSide = Side.Sell ∧ c0.Price < aggPrice
        · simp only [matchScan, if_neg h0, if_neg hs1, if_pos hs2] at hpos ⊢
          rcases List.mem_cons.mp hc with rfl | hc'
          · exfalso
            rcases helig with hm | ⟨hsd, -⟩ | ⟨-, hp⟩
            · exact hs2.1 hm
            · rw [hs2.2.1] at hsd
              exact (by decide : Side.Sell ≠ Side.Buy) hsd
            · omega
          · exact ih rem tid h hrest hpos c hc' helig
        · simp only [matchScan, if_neg h0, if_neg hs1, if_neg hs2] at hpos ⊢
          have hml := Core.minf_le_left rem c0.Remaining
          have hc0 := hcs c0 (List.mem_cons_self _ _)
          have hrb := matchScan_remBounds aggSide aggTyp aggPrice aggId now rest
            (rem - minf rem c0.Remaining) (tid + 1) (by omega) hrest
          have hq : minf rem c0.Remaining = c0.Remaining := by
            by_cases hlt : rem < c0.Remaining
            · exfalso
              have : minf rem c0.Remaining = rem := by unfold minf; rw [if_pos hlt]
              rw [this] at hrb hpos
              omega
            · unfold minf
              rw [if_neg hlt]
          rcases List.mem_cons.mp hc with rfl | hc'
          · have : c.Remaining - minf rem c.Remaining = 0 := by omega
            exact List.mem_cons.mpr (Or.inl (by rw [this]))
          · exact List.mem_cons_of_mem _
              (ih (rem - minf rem c0.Remaining) (tid + 1) (by omega) hrest hpos c hc' helig)

/-- Replaying the remaining-quantity writes keeps the ID sequence. -/
theorem applyUpds_ids : ∀ (upds : List (Nat × ℤ)) (ob : List Order),
    (applyUpds ob upds).map Order.ID = ob.map Order.ID := by
  intro upds
  induction upds with
  | nil => intro ob; rfl
  | cons p rest ih =>
    intro ob
    show (applyUpds (ob.map fun o => if o.ID = p.1 then { o with Remaining := p.2 } else o)
      rest).map Order.ID = ob.map Order.ID
    rw [ih, List.map_map]
    exact List.map_congr_left fun a _ => by by_cases h : a.ID = p.1 <;> simp [h]

/-- Every order after the replay descends from a stored order with the
same ID, price and side; its remaining is either untouched or one of the
written values. -/
theorem applyUpds_shape : ∀ (upds : List (Nat × ℤ)) (ob : List Order),
    ∀ o' ∈ applyUpds ob upds,
      ∃ o ∈ ob, o'.ID = o.ID ∧ o'.Price = o.Price ∧ o'.Side = o.Side ∧
        (o'.Remaining = o.Remaining ∨ (o'.ID, o'.Remaining) ∈ upds) := by
  intro upds
  induction upds with
  | nil =>
    intro ob o' ho'
    exact ⟨o', ho', rfl, rfl, rfl, Or.inl rfl⟩
  | cons p rest ih =>
    intro ob o' ho'
    obtain ⟨o1, ho1, hid, hpr, hsd, hrem⟩ := ih _ o' ho'
    rcases List.mem_map.mp ho1 with ⟨o0, ho0, ho1e⟩
    by_cases hk : o0.ID = p.1
    · rw [if_pos hk] at ho1e
      refine ⟨o0, ho0, by rw [hid, ← ho1e], by rw [hpr, ← ho1e], by rw [hsd, ← ho1e], ?_⟩
      rcases hrem with hrem | hrem
      · refine Or.inr (List.mem_cons.mpr (Or.inl ?_))
        have h1 : o'.ID = p.1 := by rw [hid, ← ho1e]; exact hk
        have h2 : o'.Remaining = p.2 := by rw [hrem, ← ho1e]
        rw [h1, h2]
      · exact Or.inr (List.mem_cons_of_mem _ hrem)
    · rw [if_neg hk] at ho1e
      refine ⟨o0, ho0, by rw [hid, ← ho1e], by rw [hpr, ← ho1e], by rw [hsd, ← ho1e], ?_⟩
      rcases hrem with hrem | hrem
      · exact Or.inl (by rw [hrem, ← ho1e])
      · exact Or.inr (List.mem_cons_of_mem _ hrem)

/-- Orders whose ID is never written keep a remaining value that all
stored orders of that ID share. -/
theorem applyUpds_notkey : ∀ (upds : List (Nat × ℤ)) (ob : List Order) (oid : Nat) (r : ℤ),
    oid ∉ upds.map Prod.fst →
    (∀ o ∈ ob, o.ID = oid → o.Remaining = r) →
    ∀ o' ∈ applyUpds ob upds, o'.ID = oid → o'.Remaining = r := by
  intro upds
  induction upds with
  | nil => intro ob oid r _ hall o' ho' hid; exact hall o' ho' hid
  | cons p rest ih =>
    intro ob oid r hk hall o' ho' hid
    rw [List.map_cons, List.mem_cons] at hk
    push_neg at hk
    refine ih _ oid r hk.2 ?_ o' ho' hid
    intro o1 ho1 hid1
    rcases List.mem_map.mp ho1 with ⟨o0, ho0, ho1e⟩
    by_cases hk0 : o0.ID = p.1
    · exfalso
      apply hk.1
      rw [← hid1, ← ho1e, if_pos hk0]
      exact hk0.symm ▸ rfl
    · rw [← ho1e, if_neg hk0]
      apply hall o0 ho0
      rw [← ho1e, if_neg hk0] at hid1
      exact hid1

/-- A written (key, value) pair with distinct keys determines the final
remaining of every stored order with that ID. -/
theorem applyUpds_val : ∀ (upds : List (Nat × ℤ)) (ob : List Order) (oid : Nat) (r : ℤ),
    (upds.map Prod.fst).Nodup → (oid, r) ∈ upds →
    ∀ o' ∈ applyUpds ob upds, o'.ID = oid → o'.Remaining = r := by
  intro upds
  induction upds with
  | nil => intro ob oid r _ hmem; simp at hmem
  | cons p rest ih =>
    intro ob oid r hnd hmem o' ho' hid
    rw [List.map_cons, List.nodup_cons] at hnd
    obtain ⟨hno, hnd'⟩ := hnd
    rcases List.mem_cons.mp hmem with rfl | hmem'
    · refine applyUpds_notkey rest _ oid r (by simpa using hno) ?_ o' ho' hid
      intro o1 ho1 hid1
      rcases List.mem_map.mp ho1 with ⟨o0, ho0, ho1e⟩
      by_cases hk0 : o0.ID = oid
      · rw [← ho1e]
        simp [hk0]
      · exfalso
        rw [← ho1e, if_neg (by simpa using hk0)] at hid1
        exact hk0 hid1
    · exact ih _ oid r hnd' hmem' o' ho' hid

end MatchEng

namespace MatchEng

/-- Well-formedness of one symbol's order list in `internal/engine`: IDs
are distinct and below the fresh-ID counter, remainings are nonnegative,
and the resting orders (positive remaining) never cross. -/
def BookWF (n : Nat) (ob : List Order) : Prop :=
  (ob.map Order.ID).Nodup ∧ (∀ o ∈ ob, o.ID < n) ∧ (∀ o ∈ ob, 0 ≤ o.Remaining) ∧
  ∀ b ∈ ob, ∀ a ∈ ob, b.Side = Side.Buy → a.Side = Side.Sell →
    0 < b.Remaining → 0 < a.Remaining → b.Price < a.Price

/-- Engine invariant: every symbol's book is well formed. -/
def MInv (s : State) : Prop := ∀ sym, BookWF s.nextOrderId (bookOf s sym)

theorem BookWF_mono {n m : Nat} (h : n ≤ m) {ob : List Order} (hwf : BookWF n ob) :
    BookWF m ob :=
  ⟨hwf.1, fun o ho => lt_of_lt_of_le (hwf.2.1 o ho) h, hwf.2.2.1, hwf.2.2.2⟩

theorem initState_MInv : MInv initState := by
  intro sym
  have hb : bookOf initState sym = [] := rfl
  rw [BookWF, hb]
  exact ⟨List.nodup_nil, by simp, by simp, by simp⟩

/-- Submission rewrites the submitted symbol's book to `submitBook`. -/
theorem submit_book_eq (s : State) (inp : MInput) :
    bookOf (SubmitOrder s inp).1 inp.Symbol =
      submitBook (bookOf s inp.Symbol) (mkAggM s inp) s.now s.nextTradeId := by
  unfold bookOf SubmitOrder
  dsimp only
  rw [alookup_aset_self]
  rfl

/-- Submission leaves every other symbol's book unchanged. -/
theorem submit_book_ne (s : State) (inp : MInput) (sym : String) (h : sym ≠ inp.Symbol) :
    bookOf (SubmitOrder s inp).1 sym = bookOf s sym := by
  unfold bookOf SubmitOrder
  dsimp only
  rw [alookup_aset_ne _ _ _ _ h]

end MatchEng

namespace MatchEng

/-- One submission on a well-formed book yields a well-formed book under
the bumped fresh-ID counter: in particular the resting orders of the
`internal/engine` book never cross. -/
theorem submitBook_WF (n now0 tid0 : Nat) (ob : List Order) (agg : Order)
    (hwf : BookWF n ob) (hid : agg.ID = n) (hrem : 0 < agg.Remaining) :
    BookWF (n + 1) (submitBook ob agg now0 tid0) := by
  simp only [submitBook, submitScan]
  set opp := if agg.Side = Side.Buy then Side.Sell else Side.Buy with hoppeq
  set cands := List.filter
    (fun c => decide (c.Side = opp) && decide (0 < c.Remaining)) ob with hcandseq
  set sorted := stableSort (candLess agg.Side) cands with hsortedeq
  set res := matchScan agg.Side agg.Typ agg.Price agg.ID now0 sorted agg.Remaining tid0
    with hreseq
  have hcands : ∀ c ∈ cands, c ∈ ob ∧ c.Side = opp ∧ 0 < c.Remaining := by
    intro c hc
    rw [hcandseq] at hc
    obtain ⟨h1, h2⟩ := List.mem_filter.mp hc
    simp only [Bool.and_eq_true, decide_eq_true_eq] at h2
    exact ⟨h1, h2.1, h2.2⟩
  have hcandnd : (cands.map Order.ID).Nodup := by
    rw [hcandseq]
    exact List.Sublist.nodup (List.Sublist.map Order.ID (List.filter_sublist ob)) hwf.1
  have hsortmem : ∀ c, c ∈ sorted ↔ c ∈ cands := by
    intro c
    rw [hsortedeq]
    exact mem_stableSort _ c cands
  have hsortnd : (sorted.map Order.ID).Nodup := by
    rw [hsortedeq]
    exact (List.Perm.nodup_iff
      (List.Perm.map Order.ID (stableSort_perm (candLess agg.Side) cands))).mpr hcandnd
  have hsortnn : ∀ c ∈ sorted, 0 ≤ c.Remaining :=
    fun c hc => le_of_lt (hcands c ((hsortmem c).mp hc)).2.2
  have hremnn : (0:ℤ) ≤ agg.Remaining := le_of_lt hrem
  have hupds := matchScan_upds agg.Side agg.Typ agg.Price agg.ID now0 sorted
    agg.Remaining tid0 hremnn hsortnn
  rw [← hreseq] at hupds
  have hkeys := matchScan_keys agg.Side agg.Typ agg.Price agg.ID now0 sorted
    agg.Remaining tid0 hsortnd
  rw [← hreseq] at hkeys
  have hids1 : (applyUpds ob res.upds).map Order.ID = ob.map Order.ID :=
    applyUpds_ids res.upds ob
  have hdesc : ∀ o' ∈ applyUpds ob res.upds, ∃ o0 ∈ ob,
      o'.ID = o0.ID ∧ o'.Price = o0.Price ∧ o'.Side = o0.Side ∧
      0 ≤ o'.Remaining ∧ o'.Remaining ≤ o0.Remaining := by
    intro o' ho'
    obtain ⟨o0, ho0, hidv, hpr, hsd, hrm⟩ := applyUpds_shape res.upds ob o' ho'
    rcases hrm with hrm | hrm
    · exact ⟨o0, ho0, hidv, hpr, hsd, hrm ▸ hwf.2.2.1 o0 ho0, le_of_eq hrm⟩
    · obtain ⟨c, hcm, hcid, h0, hle⟩ := hupds (o'.ID, o'.Remaining) hrm
      have hcob := hcands c ((hsortmem c).mp hcm)
      have hco : c = o0 := by
        refine memM_id_unique ob hwf.1 c o0 hcob.1 ho0 ?_
        have hcid' : o'.ID = c.ID := hcid
        rw [← hcid', hidv]
      have h0' : (0:ℤ) ≤ o'.Remaining := h0
      have hle' : o'.Remaining ≤ c.Remaining := hle
      exact ⟨o0, ho0, hidv, hpr, hsd, h0', hco ▸ hle'⟩
  have hzero : 0 < res.rem → ∀ c ∈ ob, c.Side = opp → 0 < c.Remaining →
      elig agg.Side agg.Typ agg.Price c →
      ∀ o' ∈ applyUpds ob res.upds, o'.ID = c.ID → o'.Remaining = 0 := by
    intro hpos c hcob hcs hcr helig o' ho' hidv
    have hcm : c ∈ sorted := by
      refine (hsortmem c).mpr ?_
      rw [hcandseq]
      refine List.mem_filter.mpr ⟨hcob, ?_⟩
      simp only [Bool.and_eq_true, decide_eq_true_eq]
      exact ⟨hcs, hcr⟩
    have hz := matchScan_elig_zero agg.Side agg.Typ agg.Price agg.ID now0 sorted
      agg.Remaining tid0 hremnn hsortnn (hreseq ▸ hpos) c hcm helig
    rw [← hreseq] at hz
    exact applyUpds_val res.upds ob c.ID 0 hkeys.1 hz o' ho' hidv
  by_cases hrpos : 0 < res.rem
  · rw [if_pos hrpos]
    refine ⟨?_, ?_, ?_, ?_⟩
    · rw [List.map_append, hids1]
      simp only [List.map_cons, List.map_nil]
      refine List.Nodup.append hwf.1 (List.nodup_singleton _) ?_
      intro x hx hy
      rcases List.mem_map.mp hx with ⟨o0, ho0, rfl⟩
      rw [List.mem_singleton] at hy
      have hb := hwf.2.1 o0 ho0
      have he : o0.ID = n := hy.trans hid
      omega
    · intro o' ho'
      rcases List.mem_append.mp ho' with h | h
      · obtain ⟨o0, ho0, hidv, -, -, -, -⟩ := hdesc o' h
        have := hwf.2.1 o0 ho0
        rw [hidv]
        omega
      · rw [List.mem_singleton] at h
        subst h
        exact lt_of_eq_of_lt hid (Nat.lt_succ_self n)
    · intro o' ho'
      rcases List.mem_append.mp ho' with h | h
      · exact (hdesc o' h).choose_spec.2.2.2.2.1
      · rw [List.mem_singleton] at h
        subst h
        exact le_of_lt hrpos
    · intro b hb a ha hbs has hbr har
      rcases List.mem_append.mp hb with hbm | hbm <;>
        rcases List.mem_append.mp ha with ham | ham
      · obtain ⟨b0, hb0, hbid, hbpr, hbsd, -, hble⟩ := hdesc b hbm
        obtain ⟨a0, ha0, haid, hapr, hasd, -, hale⟩ := hdesc a ham
        rw [hbpr, hapr]
        exact hwf.2.2.2 b0 hb0 a0 ha0 (hbsd ▸ hbs) (hasd ▸ has)
          (lt_of_lt_of_le hbr hble) (lt_of_lt_of_le har hale)
      · rw [List.mem_singleton] at ham
        subst ham
        have hgs : agg.Side = Side.Sell := has
        obtain ⟨b0, hb0, hbid, hbpr, hbsd, -, hble⟩ := hdesc b hbm
        have hb0s : b0.Side = Side.Buy := hbsd ▸ hbs
        have hoppB : opp = Side.Buy := by rw [hoppeq, hgs]; decide
        have hb0r : 0 < b0.Remaining := lt_of_lt_of_le hbr hble
        by_cases helig : elig agg.Side agg.Typ agg.Price b0
        · exact absurd (hzero hrpos b0 hb0 (hb0s.trans hoppB.symm) hb0r helig b hbm hbid)
            (by omega)
        · rw [elig] at helig
          push_neg at helig
          rw [hbpr]
          exact helig.2.2 hgs
      · rw [List.mem_singleton] at hbm
        subst hbm
        have hgs : agg.Side = Side.Buy := hbs
        obtain ⟨a0, ha0, haid, hapr, hasd, -, hale⟩ := hdesc a ham
        have ha0s : a0.Side = Side.Sell := hasd ▸ has
        have hoppS : opp = Side.Sell := by rw [hoppeq, hgs]; decide
        have ha0r : 0 < a0.Remaining := lt_of_lt_of_le har hale
        by_cases helig : elig agg.Side agg.Typ agg.Price a0
        · exact absurd (hzero hrpos a0 ha0 (ha0s.trans hoppS.symm) ha0r helig a ham haid)
            (by omega)
        · rw [elig] at helig
          push_neg at helig
          rw [hapr]
          exact helig.2.1 hgs
      · rw [List.mem_singleton] at hbm ham
        subst hbm
        rw [ham] at has
        exact absurd (hbs.symm.trans has) (by decide)
  · rw [if_neg hrpos]
    refine ⟨?_, ?_, ?_, ?_⟩
    · rw [hids1]
      exact hwf.1
    · intro o' ho'
      obtain ⟨o0, ho0, hidv, -, -, -, -⟩ := hdesc o' ho'
      have := hwf.2.1 o0 ho0
      rw [hidv]
      omega
    · intro o' ho'
      exact (hdesc o' ho').choose_spec.2.2.2.2.1
    · intro b hb a ha hbs has hbr har
      obtain ⟨b0, hb0, hbid, hbpr, hbsd, -, hble⟩ := hdesc b hb
      obtain ⟨a0, ha0, haid, hapr, hasd, -, hale⟩ := hdesc a ha
      rw [hbpr, hapr]
      exact hwf.2.2.2 b0 hb0 a0 ha0 (hbsd ▸ hbs) (hasd ▸ has)
        (lt_of_lt_of_le hbr hble) (lt_of_lt_of_le har hale)

end MatchEng

namespace MatchEng

theorem mSubmit_inv (s : State) (inp : MInput) (hq : 0 < inp.Quantity)
    (hr : inp.Remaining = 0) (hinv : MInv s) : MInv (SubmitOrder s inp).1 := by
  have hrm : 0 < (mkAggM s inp).Remaining := by
    show 0 < (if inp.Remaining = 0 then inp.Quantity else inp.Remaining)
    rw [if_pos hr]
    exact hq
  intro sym
  show BookWF (s.nextOrderId + 1) (bookOf (SubmitOrder s inp).1 sym)
  by_cases hsym : sym = inp.Symbol
  · subst hsym
    rw [submit_book_eq]
    exact submitBook_WF s.nextOrderId s.now s.nextTradeId (bookOf s inp.Symbol)
      (mkAggM s inp) (hinv inp.Symbol) rfl hrm
  · rw [submit_book_ne s inp sym hsym]
    exact BookWF_mono (Nat.le_succ _) (hinv sym)

theorem runEng_inv (ops : List MInput)
    (hops : ∀ i ∈ ops, 0 < i.Quantity ∧ i.Remaining = 0) : MInv (runEng ops) := by
  suffices h : ∀ (l : List MInput) (s : State),
      (∀ i ∈ l, 0 < i.Quantity ∧ i.Remaining = 0) → MInv s →
      MInv (l.foldl (fun s inp => (SubmitOrder s inp).1) s) from
    h ops initState hops initState_MInv
  intro l
  induction l with
  | nil => intro s _ hs; exact hs
  | cons i rest ih =>
    intro s hl hs
    exact ih _ (fun j hj => hl j (List.mem_cons_of_mem _ hj))
      (mSubmit_inv s i (hl i (List.mem_cons_self _ _)).1 (hl i (List.mem_cons_self _ _)).2 hs)

end MatchEng

/-- C2: claim corrected.  The core engine's stored book can cross (see the
counterexample): `SubmitOrder` inserts stale copies and never updates the
book after matching.  The amended no-crossed-book property holds of the
`internal/engine` matcher: after any sequence of submissions with positive
quantity (and `Remaining` left zero, as the gRPC adapter does), any
resting buy and sell order of one symbol's book with positive remaining
satisfy best-bid-price < best-ask-price, i.e. the book never crosses. -/
theorem no_crossed_book_engine (ops : List MatchEng.MInput)
    (hops : ∀ i ∈ ops, 0 < i.Quantity ∧ i.Remaining = 0)
    (sym : String) (b a : MatchEng.Order)
    (hb : b ∈ MatchEng.bookOf (MatchEng.runEng ops) sym)
    (ha : a ∈ MatchEng.bookOf (MatchEng.runEng ops) sym)
    (hbs : b.Side = MatchEng.Side.Buy) (has : a.Side = MatchEng.Side.Sell)
    (hbr : 0 < b.Remaining) (har : 0 < a.Remaining) : b.Price < a.Price :=
  (MatchEng.runEng_inv ops hops sym).2.2.2 b hb a ha hbs has hbr har

/-- Concrete run for the no-cross property: a resting SELL 101 and a
later non-crossing BUY 100 on symbol "X". -/
theorem no_crossed_book_engine_witness :
    (∀ i ∈ [mkMInp MatchEng.Side.Sell MatchEng.OrderType.Limit 101 1,
            mkMInp MatchEng.Side.Buy MatchEng.OrderType.Limit 100 1],
        0 < i.Quantity ∧ i.Remaining = 0) ∧
    ({ ID := 1, ClientID := "c", Symbol := "X", Side := MatchEng.Side.Buy,
       Typ := MatchEng.OrderType.Limit, Price := 100, Quantity := 1, Remaining := 1,
       CreatedAt := 1 } : MatchEng.Order) ∈
      MatchEng.bookOf (MatchEng.runEng
        [mkMInp MatchEng.Side.Sell MatchEng.OrderType.Limit 101 1,
         mkMInp MatchEng.Side.Buy MatchEng.OrderType.Limit 100 1]) "X" ∧
    ({ ID := 0, ClientID := "c", Symbol := "X", Side := MatchEng.Side.Sell,
       Typ := MatchEng.OrderType.Limit, Price := 101, Quantity := 1, Remaining := 1,
       CreatedAt := 0 } : MatchEng.Order) ∈
      MatchEng.bookOf (MatchEng.runEng
        [mkMInp MatchEng.Side.Sell MatchEng.OrderType.Limit 101 1,
         mkMInp MatchEng.Side.Buy MatchEng.OrderType.Limit 100 1]) "X" ∧
    (100:ℤ) < 101 :=
  ⟨by decide, by decide, by decide,
   no_crossed_book_engine
     [mkMInp MatchEng.Side.Sell MatchEng.OrderType.Limit 101 1,
      mkMInp MatchEng.Side.Buy MatchEng.OrderType.Limit 100 1]
     (by decide) "X"
     { ID := 1, ClientID := "c", Symbol := "X", Side := MatchEng.Side.Buy,
       Typ := MatchEng.OrderType.Limit, Price := 100, Quantity := 1, Remaining := 1,
       CreatedAt := 1 }
     { ID := 0, ClientID := "c", Symbol := "X", Side := MatchEng.Side.Sell,
       Typ := MatchEng.OrderType.Limit, Price := 101, Quantity := 1, Remaining := 1,
       CreatedAt := 0 }
     (by decide) (by decide) (by decide) (by decide) (by decide) (by decide)⟩
